import Mathlib

/-!
Shallow embedding of the Convack convex-polygon packing library
(src/src/convex_polygon.cpp, src/src/transformation.cpp, src/src/point2.cpp,
src/src/beam/packing_candidate.cpp, src/src/beam/beam_search.cpp,
src/src/scene.cpp).

Coordinates (C++ float `coordinate_t`) and areas (C++ float `area_t`) are
modelled over an arbitrary linear ordered field K; concrete evaluations
instantiate K at the rationals, statements about rotations instantiate K at
the reals.  Loops whose termination the C++ source does not guarantee
structurally (the gift-wrapping walk and the walk of the second phase of
Chan's algorithm) are modelled with explicit fuel and return an Option;
`none` stands for non-termination of the source loop.
-/

namespace Convack

variable {K : Type} [LinearOrderedField K]

/-- Point2 (src/src/point2.cpp): a point in 2D space with an x and a y
coordinate. -/
structure Point2 (K : Type) where
  x : K
  y : K
deriving DecidableEq, Repr

/-- Point2::operator- (src/src/point2.cpp): element-wise subtraction. -/
instance : Sub (Point2 K) where
  sub a b := ⟨a.x - b.x, a.y - b.y⟩

/-- Point2::magnitude2 (src/src/point2.cpp): squared magnitude x*x + y*y. -/
def Point2.magnitude2 (p : Point2 K) : K :=
  p.x * p.x + p.y * p.y

/-- Modelled from the spec: Point2::dot is called by
ConvexPolygon::Impl::collides ("project every vertex of other ... onto the
axis") but its definition is not among the repository files under src/;
it is the standard 2D dot product. -/
def Point2.dot (a b : Point2 K) : K :=
  a.x * b.x + a.y * b.y

theorem Point2.sub_def (a b : Point2 K) : a - b = ⟨a.x - b.x, a.y - b.y⟩ := rfl

@[simp]
theorem Point2.sub_x (a b : Point2 K) : (a - b).x = a.x - b.x := rfl

@[simp]
theorem Point2.sub_y (a b : Point2 K) : (a - b).y = a.y - b.y := rfl

/-- ConvexPolygon::Impl::is_left (src/src/convex_polygon.cpp lines 485-487):
positive when the query point is to the left of the line through a and b,
negative to the right, zero on the line. -/
def is_left (a b query : Point2 K) : K :=
  (b.x - a.x) * (query.y - a.y) - (b.y - a.y) * (query.x - a.x)

/-- Transformation (src/src/transformation.cpp): the six cells of a
column-major 2x3 affine transformation matrix, as in the
std::array<double, 6> field `data` (d0 = data[0], ..., d5 = data[5]). -/
structure Transformation (K : Type) where
  d0 : K
  d1 : K
  d2 : K
  d3 : K
  d4 : K
  d5 : K
deriving DecidableEq, Repr

/-- Transformation::Transformation (src/src/transformation.cpp lines 13-18):
the default constructor initialises the matrix as an identity matrix,
data = {1, 0, 0, 1, 0, 0}. -/
def Transformation.identity : Transformation K :=
  ⟨1, 0, 0, 1, 0, 0⟩

/-- Transformation::apply (src/src/transformation.cpp lines 24-26):
(data[0]*x + data[2]*y + data[4], data[1]*x + data[3]*y + data[5]). -/
def Transformation.apply (t : Transformation K) (point : Point2 K) : Point2 K :=
  ⟨t.d0 * point.x + t.d2 * point.y + t.d4,
   t.d1 * point.x + t.d3 * point.y + t.d5⟩

/-- Transformation::rotate (src/src/transformation.cpp lines 28-41) with the
cosine and the sine of the angle as arguments: left-multiplies the rotation
matrix onto the current matrix, writing into fresh storage. -/
def Transformation.rotateBy (t : Transformation K) (cosine sine : K) : Transformation K :=
  ⟨cosine * t.d0 - sine * t.d1,
   sine * t.d0 + cosine * t.d1,
   cosine * t.d2 - sine * t.d3,
   sine * t.d2 + cosine * t.d3,
   cosine * t.d4 - sine * t.d5,
   sine * t.d4 + cosine * t.d5⟩

/-- Transformation::rotate (src/src/transformation.cpp lines 28-41): computes
the cosine and the sine of the angle (in radians, counterclockwise) and
left-multiplies the rotation matrix onto the current matrix. -/
noncomputable def Transformation.rotate (t : Transformation ℝ) (angle_radians : ℝ) : Transformation ℝ :=
  t.rotateBy (Real.cos angle_radians) (Real.sin angle_radians)

/-- Transformation::translate (src/src/transformation.cpp lines 43-47):
data[4] += x; data[5] += y. -/
def Transformation.translate (t : Transformation K) (x y : K) : Transformation K :=
  { t with d4 := t.d4 + x, d5 := t.d5 + y }

/-- ConvexPolygon (src/src/convex_polygon.cpp, class ConvexPolygon::Impl):
the vertex list together with the transformation applied since construction
(bookkeeping only: the transformation is already applied to the vertices). -/
structure ConvexPolygon (K : Type) where
  vertices : List (Point2 K)
  transformation : Transformation K
deriving Repr

/-- ConvexPolygon::ConvexPolygon(const std::vector<Point2>&)
(src/src/convex_polygon.cpp line 46 and 500): copies the vertices in; the
transformation member is default-constructed, i.e. the identity. -/
def ConvexPolygon.ofVertices (vertices : List (Point2 K)) : ConvexPolygon K :=
  ⟨vertices, Transformation.identity⟩

/-- ConvexPolygon::get_vertices (src/src/convex_polygon.cpp lines 192-194). -/
def ConvexPolygon.get_vertices (c : ConvexPolygon K) : List (Point2 K) :=
  c.vertices

/-- ConvexPolygon::current_transformation (src/src/convex_polygon.cpp lines
186-188). -/
def ConvexPolygon.current_transformation (c : ConvexPolygon K) : Transformation K :=
  c.transformation

/-- Helper for vertex indexing: vertices[i] of the C++ std::vector.  All uses
in the source index within bounds; out of bounds we return (0, 0). -/
def nthV (l : List (Point2 K)) (i : Nat) : Point2 K :=
  l.getD i ⟨0, 0⟩

/-- ConvexPolygon::Impl::area (src/src/convex_polygon.cpp lines 98-117): the
shoelace formula; iterates vertex = 0..n-1 with previous starting at n-1,
summing x[prev]*y[cur] - y[prev]*x[cur], and halves the total. -/
def ConvexPolygon.area (c : ConvexPolygon K) : K :=
  let vs := c.vertices
  let n := vs.length
  ((List.range n).foldl
    (fun acc vertex =>
      acc + (nthV vs ((vertex + n - 1) % n)).x * (nthV vs vertex).y
          - (nthV vs ((vertex + n - 1) % n)).y * (nthV vs vertex).x)
    0) / 2

/-- ConvexPolygon::Impl::contains (src/src/convex_polygon.cpp lines 121-135):
false with fewer than 3 vertices; otherwise the point must be strictly left
of every oriented edge (is_left > 0 for all edges vertices[i] to
vertices[(i+1) % n]). -/
def ConvexPolygon.contains (c : ConvexPolygon K) (point : Point2 K) : Bool :=
  let vs := c.vertices
  if vs.length < 3 then false
  else (List.range vs.length).all fun i =>
    decide (0 < is_left (nthV vs i) (nthV vs ((i + 1) % vs.length)) point)

/-- One direction of ConvexPolygon::Impl::collides (src/src/convex_polygon.cpp
lines 151-174): for every edge of the first polygon, some vertex of the other
polygon projects negatively on the axis perpendicular to that edge (otherwise
that axis separates the polygons). -/
def collidesOneSide (vs other : List (Point2 K)) : Bool :=
  (List.range vs.length).all fun this_edge =>
    let edge_vector := nthV vs ((this_edge + 1) % vs.length) - nthV vs this_edge
    let axis_vector : Point2 K := ⟨edge_vector.y, -edge_vector.x⟩
    other.any fun other_vertex =>
      decide (axis_vector.dot (other_vertex - nthV vs this_edge) < 0)

/-- ConvexPolygon::Impl::collides with check_other = false
(src/src/convex_polygon.cpp lines 143-182): the short-circuit on fewer than 3
vertices, then the separating-axes scan over this polygon's edges only. -/
def collidesNoCheck (vs other : List (Point2 K)) : Bool :=
  if vs.length < 3 || other.length < 3 then false
  else collidesOneSide vs other

/-- ConvexPolygon::Impl::collides with check_other = true, the entry point
reached from ConvexPolygon::collides (src/src/convex_polygon.cpp lines
143-182 and 526-528): after this polygon's edges are scanned, the check is
repeated from the other side with check_other = false. -/
def ConvexPolygon.collides (c other : ConvexPolygon K) : Bool :=
  if c.vertices.length < 3 || other.vertices.length < 3 then false
  else if !collidesOneSide c.vertices other.vertices then false
  else collidesNoCheck other.vertices c.vertices

/-- ConvexPolygon::Impl::operator== (src/src/convex_polygon.cpp lines 50-72):
equal sizes required; empty equals empty; otherwise some cyclic rotation
offset makes the vertex lists match element-wise. -/
def ConvexPolygon.eq (c other : ConvexPolygon K) : Bool :=
  let vs := c.vertices
  let other_vertices := other.get_vertices
  if vs.length ≠ other_vertices.length then false
  else if vs.isEmpty then true
  else (List.range vs.length).any fun offset =>
    (List.range vs.length).all fun i =>
      decide (nthV vs i = nthV other_vertices ((i + offset) % vs.length))

/-- The lexicographic comparison a.x < b.x || (a.x == b.x && a.y < b.y) used
as the std::min_element comparator in ConvexPolygon::Impl::gift_wrapping
(src/src/convex_polygon.cpp lines 233-235) and throughout chans_algorithm. -/
def lexLt (a b : Point2 K) : Bool :=
  decide (a.x < b.x) || (decide (a.x = b.x) && decide (a.y < b.y))

/-- std::min_element over a nonempty vector with the lexLt comparator: the
first element no later element compares strictly below.  The empty case is
unreachable at every call site (gift_wrapping has at least 3 points). -/
def first_min (l : List (Point2 K)) : Point2 K :=
  match l with
  | [] => ⟨0, 0⟩
  | x :: xs => xs.foldl (fun best c => if lexLt c best then c else best) x

/-- The body of the search for the next hull vertex in
ConvexPolygon::Impl::gift_wrapping (src/src/convex_polygon.cpp lines 244-263):
start from the first point different from last (or last itself when there is
none), then scan all points, replacing the best by any point strictly to the
right of the line from last to best, or by a colinear point farther from
last. -/
def passStep (last best next : Point2 K) : Point2 K :=
  let left := is_left last best next
  if left < 0 then next
  else if left = 0 then
    (if (next - last).magnitude2 > (best - last).magnitude2 then next else best)
  else best

def innerPass (points : List (Point2 K)) (last : Point2 K) : Point2 K :=
  let best0 := (points.find? fun candidate => decide (candidate ≠ last)).getD last
  points.foldl (passStep last) best0

/-- The do-while walk of ConvexPolygon::Impl::gift_wrapping
(src/src/convex_polygon.cpp lines 237-266): push the current vertex, find the
next one with innerPass, and stop once the next vertex equals the first one
pushed (r0).  Fuel bounds the number of iterations; none models a walk that
never closes (the C++ loop would then not terminate). -/
def gwLoop (points : List (Point2 K)) (r0 : Point2 K) :
    Nat → Point2 K → List (Point2 K) → Option (List (Point2 K))
  | 0, _, _ => none
  | fuel + 1, last, acc =>
    let acc' := acc ++ [last]
    let best := innerPass points last
    if best = r0 then some acc' else gwLoop points r0 fuel best acc'

/-- ConvexPolygon::Impl::gift_wrapping (src/src/convex_polygon.cpp lines
227-269): inputs of at most 2 points are returned unchanged; otherwise the
walk starts at the point most to negative X (ties broken towards negative Y)
and wraps until the loop closes.  The C++ loop pushes one distinct hull
vertex per iteration and closes at the first return to the start, so when it
terminates at all it terminates within points.length iterations; fuel
points.length + 1 is therefore exact: none if and only if the C++ loop never
closes. -/
def gift_wrapping (points : List (Point2 K)) : Option (List (Point2 K)) :=
  if points.length ≤ 2 then some points
  else
    let start := first_min points
    gwLoop points start (points.length + 1) start []

/-- ConvexPolygon::convex_hull(const std::vector<Point2>&)
(src/src/convex_polygon.cpp lines 34-36 and 492-494): gift wrapping, wrapped
into a polygon whose transformation is the identity. -/
def convex_hull_points (points : List (Point2 K)) : Option (ConvexPolygon K) :=
  (gift_wrapping points).map ConvexPolygon.ofVertices

/-- The reversed lexicographic comparison pivot_point.x > lower_point.x ||
(pivot_point.x == lower_point.x && pivot_point.y > lower_point.y) of
src/src/convex_polygon.cpp line 355. -/
def lexGt (a b : Point2 K) : Bool :=
  decide (b.x < a.x) || (decide (a.x = b.x) && decide (b.y < a.y))

/-- The binary search for the left-most vertex of one convex polygon inside
chans_algorithm (src/src/convex_polygon.cpp lines 320-362): the while loop
narrows [lower_bound, upper_bound) until the bounds are one apart or a local
optimum is hit.  The bound difference strictly shrinks every iteration, so
the C++ loop always terminates and the recursion mirrors it exactly. -/
def chanLeftSearch (vs : List (Point2 K)) (lower upper : Nat) : Nat :=
  if _h : upper - lower ≤ 1 then lower
  else
    let n := vs.length
    let pivot := (upper + lower) / 2
    let pivot_point := nthV vs pivot
    let pivot_next := nthV vs ((pivot + 1) % n)
    let pivot_goes_left := lexLt pivot_next pivot_point
    let pivot_previous := nthV vs ((pivot - 1 + n) % n)
    if !pivot_goes_left && lexLt pivot_point pivot_previous then pivot
    else
      let lower_point := nthV vs lower
      let lower_next := nthV vs ((lower + 1) % n)
      let lower_goes_left := lexLt lower_next lower_point
      if lower_goes_left then
        (if !pivot_goes_left then chanLeftSearch vs lower ((upper + lower) / 2)
         else if lexLt pivot_point lower_point then chanLeftSearch vs ((upper + lower) / 2 + 1) upper
         else chanLeftSearch vs lower ((upper + lower) / 2))
      else
        (if pivot_goes_left then chanLeftSearch vs ((upper + lower) / 2 + 1) upper
         else if lexGt pivot_point lower_point then chanLeftSearch vs ((upper + lower) / 2 + 1) upper
         else chanLeftSearch vs lower ((upper + lower) / 2))
termination_by upper - lower
decreasing_by all_goals omega

/-- The left-most vertex index of one polygon inside chans_algorithm
(src/src/convex_polygon.cpp lines 313-363): lower_bound starts at 0 and the
binary search runs only when there is more than one vertex and vertex 0 is
not already the left-most one. -/
def chanLeftmost (vs : List (Point2 K)) : Nat :=
  if vs.length > 1 &&
     !(lexLt (nthV vs 0) (nthV vs 1) && lexLt (nthV vs 0) (nthV vs (vs.length - 1))) then
    chanLeftSearch vs 0 vs.length
  else 0

/-- The test candidate goes right used throughout the second binary search of
chans_algorithm (src/src/convex_polygon.cpp lines 407-408 and similar):
how_left < 0, or how_left == 0 with the second point farther from last. -/
def goesRight (last a b : Point2 K) (how_left : K) : Bool :=
  decide (how_left < 0) ||
    (decide (how_left = 0) && decide ((b - last).magnitude2 > (a - last).magnitude2))

/-- The binary search for the right-most vertex of one convex polygon w.r.t.
the point last inside chans_algorithm (src/src/convex_polygon.cpp lines
401-453). -/
def chanRightSearch (vs : List (Point2 K)) (last : Point2 K) (lower upper : Nat) : Nat :=
  if _h : upper - lower ≤ 1 then lower
  else
    let n := vs.length
    let pivot := (upper + lower) / 2
    let pivot_point := nthV vs pivot
    let pivot_next := nthV vs ((pivot + 1) % n)
    let pivot_how_left := is_left last pivot_point pivot_next
    let pivot_goes_right := goesRight last pivot_point pivot_next pivot_how_left
    let pivot_previous := nthV vs ((pivot - 1 + n) % n)
    if !pivot_goes_right &&
       goesRight last pivot_previous pivot_point (is_left last pivot_previous pivot_point) then
      pivot
    else
      let lower_point := nthV vs lower
      let lower_next := nthV vs ((lower + 1) % n)
      let lower_how_left := is_left last lower_point lower_next
      let lower_goes_right := goesRight last lower_point lower_next lower_how_left
      if lower_goes_right then
        (if !pivot_goes_right then chanRightSearch vs last lower ((upper + lower) / 2)
         else if decide (pivot_how_left < lower_how_left) ||
                 (decide (pivot_how_left = lower_how_left) &&
                  decide ((pivot_point - last).magnitude2 > (lower_point - last).magnitude2)) then
           chanRightSearch vs last ((upper + lower) / 2 + 1) upper
         else chanRightSearch vs last lower ((upper + lower) / 2))
      else
        (if pivot_goes_right then chanRightSearch vs last ((upper + lower) / 2 + 1) upper
         else if decide (lower_how_left < pivot_how_left) ||
                 (decide (pivot_how_left = lower_how_left) &&
                  decide ((lower_point - last).magnitude2 > (pivot_point - last).magnitude2)) then
           chanRightSearch vs last ((upper + lower) / 2 + 1) upper
         else chanRightSearch vs last lower ((upper + lower) / 2))
termination_by upper - lower
decreasing_by all_goals omega

/-- The right-most vertex index of one polygon w.r.t. last inside the walk of
chans_algorithm (src/src/convex_polygon.cpp lines 391-455): lower_bound
starts at 0 and the binary search runs only when there is more than one
vertex and vertex 0 is not already the right-most one. -/
def chanRightmost (vs : List (Point2 K)) (last : Point2 K) : Nat :=
  if vs.length > 1 &&
     !(goesRight last (nthV vs 1) (nthV vs 0) (is_left last (nthV vs 1) (nthV vs 0)) &&
       goesRight last (nthV vs (vs.length - 1)) (nthV vs 0)
         (is_left last (nthV vs (vs.length - 1)) (nthV vs 0))) then
    chanRightSearch vs last 0 vs.length
  else 0

/-- Polygon indexing polys[i] of the C++ std::vector; all uses in the source
index within bounds. -/
def nthP (polys : List (ConvexPolygon K)) (i : Nat) : ConvexPolygon K :=
  polys.getD i (ConvexPolygon.ofVertices [])

/-- The scan over the other convex polygons inside the walk of
chans_algorithm (src/src/convex_polygon.cpp lines 386-464): starting from
(last_polygon + 1) % N and wrapping around until last_polygon is reached
again, update (best, best_vertex, best_polygon) by each polygon's right-most
vertex when it is more to the right (or equally far right but farther). -/
def chanScan (polys : List (ConvexPolygon K)) (last : Point2 K) (last_polygon : Nat)
    (b0 : Point2 K × Nat × Nat) : Point2 K × Nat × Nat :=
  ((List.range (polys.length - 1)).map fun k => (last_polygon + 1 + k) % polys.length).foldl
    (fun state polygon =>
      let vs := (nthP polys polygon).get_vertices
      if vs.isEmpty then state
      else
        let lower := chanRightmost vs last
        let best := state.1
        let how_left := is_left last best (nthV vs lower)
        if decide (how_left < 0) ||
           (decide (how_left = 0) &&
            decide ((nthV vs lower - last).magnitude2 > (best - last).magnitude2)) then
          (nthV vs lower, lower, polygon)
        else state)
    b0

/-- The do-while walk of chans_algorithm (src/src/convex_polygon.cpp lines
379-470): push the current best vertex; take the next vertex of the polygon
it came from as the first candidate; scan all other polygons for a better
one; stop when the chosen vertex equals the first pushed vertex r0.  none
models a walk that never closes (the C++ loop would then not terminate). -/
def chanLoop (polys : List (ConvexPolygon K)) (r0 : Point2 K) :
    Nat → Point2 K × Nat × Nat → List (Point2 K) → Option (List (Point2 K))
  | 0, _, _ => none
  | fuel + 1, (last, last_vertex, last_polygon), acc =>
    let acc' := acc ++ [last]
    let lp_vertices := (nthP polys last_polygon).get_vertices
    let best_vertex := (last_vertex + 1) % lp_vertices.length
    let b0 : Point2 K × Nat × Nat := (nthV lp_vertices best_vertex, best_vertex, last_polygon)
    let best := chanScan polys last last_polygon b0
    if best.1 = r0 then some acc'
    else chanLoop polys r0 fuel best acc'

/-- The search for the globally left-most vertex among all convex polygons at
the start of chans_algorithm (src/src/convex_polygon.cpp lines 303-369): the
C++ starts from the sentinel Point2(FLT_MAX, 0) with best_polygon == -1;
the sentinel is modelled as none (every real vertex compares below it). -/
def chanGlobalLeftmost (polys : List (ConvexPolygon K)) : Option (Point2 K × Nat × Nat) :=
  (List.range polys.length).foldl
    (fun best polygon =>
      let vs := (nthP polys polygon).get_vertices
      if vs.isEmpty then best
      else
        let lower := chanLeftmost vs
        match best with
        | none => some (nthV vs lower, lower, polygon)
        | some b =>
          if lexLt (nthV vs lower) b.1 then some (nthV vs lower, lower, polygon) else best)
    none

/-- ConvexPolygon::Impl::chans_algorithm (src/src/convex_polygon.cpp lines
295-473): empty input gives the empty polygon, a single polygon is returned
unchanged, otherwise the walk starts at the globally left-most vertex and
wraps around all polygons until it closes.  The fuel (total vertex count
plus 2) covers every terminating run of the C++ loop: the walk state (a
vertex of one of the polygons) determines the next state, so a run with more
iterations repeats a state and then never closes. -/
def chans_algorithm (polys : List (ConvexPolygon K)) : Option (ConvexPolygon K) :=
  if polys.isEmpty then some (ConvexPolygon.ofVertices [])
  else if polys.length = 1 then some (nthP polys 0)
  else
    match chanGlobalLeftmost polys with
    | none => some (ConvexPolygon.ofVertices [])
    | some (best, best_vertex, best_polygon) =>
      let fuel := (polys.map fun c => c.vertices.length).sum + 2
      (chanLoop polys best fuel (best, best_vertex, best_polygon) []).map
        ConvexPolygon.ofVertices

/-- ConvexPolygon::convex_hull(const std::vector<ConvexPolygon>&)
(src/src/convex_polygon.cpp lines 40-42 and 496-498): Chan's algorithm. -/
def convex_hull_polygons (polys : List (ConvexPolygon K)) : Option (ConvexPolygon K) :=
  chans_algorithm polys

/-- PackingCandidate (src/include/convack/beam/packing_candidate.hpp): the
list of all convex polygons being packed, the polygon newly placed at this
node, and the parent candidate (none for a root).  The parent pointer chain
is modelled by nesting candidates. -/
inductive PackingCandidate (K : Type) where
  | mk (packed_objects : List (ConvexPolygon K)) (pack_here : ConvexPolygon K)
       (parent : Option (PackingCandidate K))

/-- The packed_objects field of a PackingCandidate. -/
def PackingCandidate.packed_objects : PackingCandidate K → List (ConvexPolygon K)
  | .mk po _ _ => po

/-- The pack_here field of a PackingCandidate. -/
def PackingCandidate.pack_here : PackingCandidate K → ConvexPolygon K
  | .mk _ ph _ => ph

/-- The parent field of a PackingCandidate. -/
def PackingCandidate.parent : PackingCandidate K → Option (PackingCandidate K)
  | .mk _ _ p => p

/-- The serialisation loop of PackingCandidate::compute_score
(src/src/beam/packing_candidate.cpp lines 27-32): walk the candidate chain
through the parent pointers, pushing each pack_here in turn. -/
def PackingCandidate.chain : PackingCandidate K → List (ConvexPolygon K)
  | .mk _ ph parent =>
    ph :: (match parent with
           | none => []
           | some c => c.chain)

/-- PackingCandidate::compute_score (src/src/beam/packing_candidate.cpp lines
22-45): serialise the parent chain into packed_so_far (which the rest of the
function does not read); loop over packed_objects assigning (not summing)
each area into covered_area, so covered_area ends as the area of the last
element (or 0 when packed_objects is empty); lost_area is the area of the
convex hull around packed_objects; 0 when lost_area is non-positive,
otherwise 1 - covered_area / lost_area.  none models a convex_hull call
whose walk never closes. -/
def PackingCandidate.compute_score (c : PackingCandidate K) : Option K :=
  let _packed_so_far := c.chain
  let covered_area : K := c.packed_objects.foldl (fun _ convex_polygon => convex_polygon.area) 0
  match convex_hull_polygons c.packed_objects with
  | none => none
  | some hull =>
    let lost_area := hull.area
    if lost_area ≤ 0 then some 0
    else some (1 - covered_area / lost_area)

/-- PackingCandidate::PackingCandidate and get_score
(src/src/beam/packing_candidate.cpp lines 11-19): the score is computed once
at construction and returned unchanged by get_score. -/
def PackingCandidate.get_score (c : PackingCandidate K) : Option K :=
  c.compute_score

/-- Scene (src/src/scene.cpp): its one configuration value, the beam width
(default 10, see Scene::Impl::Impl at lines 20-22). -/
structure Scene where
  beam_width : Nat

/-- Scene::Scene (src/src/scene.cpp line 74 with Impl constructor lines
20-22): the beam width starts at 10. -/
def Scene.construct : Scene :=
  ⟨10⟩

/-- BeamSearch::pack (src/src/beam/beam_search.cpp lines 13-25): nothing to
do on an empty input; otherwise a local priority queue is seeded with one
root candidate per polygon and then discarded.  The caller-supplied vector
is modelled by the returned list; the C++ function writes through neither
the vector nor its elements, so the model returns the list it was given
after building the same root candidates. -/
def BeamSearch.pack (_scene : Scene) (convex_polygons : List (ConvexPolygon K)) :
    List (ConvexPolygon K) :=
  if convex_polygons.isEmpty then convex_polygons
  else
    let _best_orders : List (PackingCandidate K × Option K) :=
      convex_polygons.foldl
        (fun queue convex_polygon =>
          let candidate := PackingCandidate.mk convex_polygons convex_polygon none
          (candidate, candidate.get_score) :: queue)
        []
    convex_polygons

/-- Scene::pack (src/src/scene.cpp lines 27-30 and 78-80): dispatches to
BeamSearch::pack. -/
def Scene.pack (scene : Scene) (convex_polygons : List (ConvexPolygon K)) :
    List (ConvexPolygon K) :=
  BeamSearch.pack scene convex_polygons

/-- ConvexPolygon::translate (src/src/convex_polygon.cpp lines 198-207):
build a one-off translation, apply it to every vertex, and also track it on
the cumulative transformation. -/
def ConvexPolygon.translate (c : ConvexPolygon K) (x y : K) : ConvexPolygon K :=
  let translation := Transformation.identity.translate x y
  { vertices := c.vertices.map translation.apply,
    transformation := c.transformation.translate x y }

/-- ConvexPolygon::rotate (src/src/convex_polygon.cpp lines 211-220): build a
one-off rotation, apply it to every vertex, and also track it on the
cumulative transformation. -/
noncomputable def ConvexPolygon.rotate (c : ConvexPolygon ℝ) (angle_radians : ℝ) : ConvexPolygon ℝ :=
  let rotation := Transformation.identity.rotate angle_radians
  { vertices := c.vertices.map rotation.apply,
    transformation := c.transformation.rotate angle_radians }

/-! ## Theorems -/

/-- C3: for a fixed packed_objects vector, the score computed by
PackingCandidate::compute_score is identical for every choice of pack_here
and parent: the parent-chain list collected inside compute_score is never
read afterwards, so the score depends only on the packed_objects list. -/
theorem compute_score_ignores_pack_here_and_parent
    (packed_objects : List (ConvexPolygon K))
    (pack_here pack_here' : ConvexPolygon K)
    (parent parent' : Option (PackingCandidate K)) :
    (PackingCandidate.mk packed_objects pack_here parent).compute_score =
      (PackingCandidate.mk packed_objects pack_here' parent').compute_score := rfl

/-- C10: Scene::pack (dispatching to BeamSearch::pack) leaves the
caller-supplied polygon vector completely unchanged: pack only constructs
root PackingCandidates in a local priority queue that is then discarded, so
the returned list is the input list, polygon for polygon. -/
theorem scene_pack_leaves_polygons_unchanged
    (scene : Scene) (convex_polygons : List (ConvexPolygon K)) :
    scene.pack convex_polygons = convex_polygons := by
  unfold Scene.pack BeamSearch.pack
  split <;> rfl

/-- C6: collision testing is symmetric: for every pair of convex polygons,
collides returns the same boolean with the arguments swapped. -/
theorem collides_symm (a b : ConvexPolygon K) : a.collides b = b.collides a := by
  unfold ConvexPolygon.collides collidesNoCheck
  by_cases h1 : a.vertices.length < 3 <;> by_cases h2 : b.vertices.length < 3 <;>
    simp only [h1, h2, decide_True, decide_False, Bool.true_or, Bool.or_true,
      Bool.false_or, Bool.or_false, if_true, if_false] <;>
    cases hab : collidesOneSide a.vertices b.vertices <;>
    cases hba : collidesOneSide b.vertices a.vertices <;> simp

/-- A point of the line through a and b makes the is_left cross product
vanish. -/
theorem is_left_on_line (a b : Point2 K) (t : K) :
    is_left a b ⟨a.x + t * (b.x - a.x), a.y + t * (b.y - a.y)⟩ = 0 := by
  simp only [is_left]
  ring

/-- C7: contains(point) is false with fewer than 3 vertices; with 3 or more
it holds exactly when the point is strictly left of every oriented edge
(is_left > 0 for all edges); and a point lying exactly on an edge (any convex
combination of two cyclically adjacent vertices, which at t = 0 includes
every vertex itself) is never contained. -/
theorem contains_boundary_excluded (c : ConvexPolygon K) (p : Point2 K) :
    (c.vertices.length < 3 → c.contains p = false)
  ∧ (3 ≤ c.vertices.length →
      (c.contains p = true ↔ ∀ i < c.vertices.length,
        0 < is_left (nthV c.vertices i) (nthV c.vertices ((i + 1) % c.vertices.length)) p))
  ∧ (∀ i < c.vertices.length, ∀ t : K, 0 ≤ t → t ≤ 1 →
      p = ⟨(nthV c.vertices i).x +
             t * ((nthV c.vertices ((i + 1) % c.vertices.length)).x - (nthV c.vertices i).x),
           (nthV c.vertices i).y +
             t * ((nthV c.vertices ((i + 1) % c.vertices.length)).y - (nthV c.vertices i).y)⟩ →
      c.contains p = false) := by
  refine ⟨fun h => by simp [ConvexPolygon.contains, h], fun h3 => ?_, ?_⟩
  · unfold ConvexPolygon.contains
    rw [if_neg (by omega)]
    simp only [List.all_eq_true, List.mem_range, decide_eq_true_eq]
  · intro i hi t _ht0 _ht1 hp
    rcases Nat.lt_or_ge c.vertices.length 3 with h | h3
    · simp [ConvexPolygon.contains, h]
    · rw [Bool.eq_false_iff]
      intro htrue
      unfold ConvexPolygon.contains at htrue
      rw [if_neg (by omega)] at htrue
      rw [List.all_eq_true] at htrue
      have hpos := htrue i (List.mem_range.mpr hi)
      rw [decide_eq_true_eq] at hpos
      rw [hp, is_left_on_line] at hpos
      exact lt_irrefl 0 hpos

/-- C8: vertex sets of size 0, 1 or 2 are valid degenerate polygons: area 0,
contains always false, collides false whenever either polygon has fewer than
3 vertices, and the convex hull of at most 2 points returns those points
unchanged as the polygon. -/
theorem degenerate_polygons_well_defined (vs : List (Point2 K)) (h : vs.length ≤ 2) :
    (ConvexPolygon.ofVertices vs).area = 0
  ∧ (∀ p : Point2 K, (ConvexPolygon.ofVertices vs).contains p = false)
  ∧ (∀ a b : ConvexPolygon K, a.vertices.length < 3 ∨ b.vertices.length < 3 →
      a.collides b = false)
  ∧ convex_hull_points vs = some (ConvexPolygon.ofVertices vs) := by
  refine ⟨?_, fun p => by simp [ConvexPolygon.contains, ConvexPolygon.ofVertices]; omega,
    fun a b hab => ?_, ?_⟩
  · match vs, h with
    | [], _ => simp [ConvexPolygon.area, ConvexPolygon.ofVertices]
    | [p], _ =>
      simp [ConvexPolygon.area, ConvexPolygon.ofVertices, nthV, List.range_succ]
      ring
    | [p, q], _ =>
      simp [ConvexPolygon.area, ConvexPolygon.ofVertices, nthV, List.range_succ]
      ring
  · unfold ConvexPolygon.collides
    rcases hab with h1 | h1 <;> simp [h1]
  · unfold convex_hull_points gift_wrapping
    rw [if_pos h]
    rfl

/-- Witness for C8 at a concrete two-point degenerate polygon over the
rationals. -/
theorem degenerate_polygons_well_defined_witness :
    (ConvexPolygon.ofVertices [(⟨0, 0⟩ : Point2 ℚ), ⟨3, 4⟩]).area = 0
  ∧ (∀ p : Point2 ℚ, (ConvexPolygon.ofVertices [(⟨0, 0⟩ : Point2 ℚ), ⟨3, 4⟩]).contains p = false)
  ∧ (∀ a b : ConvexPolygon ℚ, a.vertices.length < 3 ∨ b.vertices.length < 3 →
      a.collides b = false)
  ∧ convex_hull_points [(⟨0, 0⟩ : Point2 ℚ), ⟨3, 4⟩] =
      some (ConvexPolygon.ofVertices [(⟨0, 0⟩ : Point2 ℚ), ⟨3, 4⟩]) :=
  degenerate_polygons_well_defined [⟨0, 0⟩, ⟨3, 4⟩] (by decide)

/-- Composition of affine matrices: (a.compose b) applies b first, then a
(the product a * b of the 3x3 matrices with implicit bottom row [0 0 1]). -/
def Transformation.compose (a b : Transformation K) : Transformation K :=
  ⟨a.d0 * b.d0 + a.d2 * b.d1,
   a.d1 * b.d0 + a.d3 * b.d1,
   a.d0 * b.d2 + a.d2 * b.d3,
   a.d1 * b.d2 + a.d3 * b.d3,
   a.d0 * b.d4 + a.d2 * b.d5 + a.d4,
   a.d1 * b.d4 + a.d3 * b.d5 + a.d5⟩

theorem Transformation.compose_apply (a b : Transformation K) (p : Point2 K) :
    (a.compose b).apply p = a.apply (b.apply p) := by
  simp only [Transformation.compose, Transformation.apply, Point2.mk.injEq]
  constructor <;> ring

/-- Transformation::translate is left-composition by the pure translation
matrix. -/
theorem Transformation.translate_eq_compose (t : Transformation K) (x y : K) :
    t.translate x y = (Transformation.identity.translate x y).compose t := by
  simp only [Transformation.translate, Transformation.identity, Transformation.compose,
    Transformation.mk.injEq]
  refine ⟨by ring, by ring, by ring, by ring, by ring, by ring⟩

/-- Transformation::rotate is left-composition by the pure rotation matrix. -/
theorem Transformation.rotateBy_eq_compose (t : Transformation K) (cosine sine : K) :
    t.rotateBy cosine sine = (Transformation.identity.rotateBy cosine sine).compose t := by
  simp only [Transformation.rotateBy, Transformation.identity, Transformation.compose,
    Transformation.mk.injEq]
  refine ⟨by ring, by ring, by ring, by ring, by ring, by ring⟩

theorem Transformation.rotate_eq_compose (t : Transformation ℝ) (angle_radians : ℝ) :
    t.rotate angle_radians = (Transformation.identity.rotate angle_radians).compose t :=
  Transformation.rotateBy_eq_compose t _ _

/-- C5 counterexample: the spec claims a translate issued after a rotate is
expressed in the already-rotated frame, i.e. that
Transformation().rotate(theta).translate(dx, dy).apply(p) equals
R(theta) p + R(theta) (dx, dy).  At theta = pi, (dx, dy) = (0, 10) and
p = (0, 0) the code yields (0, 10) while the claimed formula yields
(0, -10). -/
theorem translate_after_rotate_cex :
    ((Transformation.identity.rotate Real.pi).translate 0 10).apply ⟨0, 0⟩ = ⟨0, 10⟩
  ∧ ¬ (((Transformation.identity.rotate Real.pi).translate 0 10).apply ⟨0, 0⟩ =
      ⟨Real.cos Real.pi * 0 - Real.sin Real.pi * 0 +
         (Real.cos Real.pi * 0 - Real.sin Real.pi * 10),
       Real.sin Real.pi * 0 + Real.cos Real.pi * 0 +
         (Real.sin Real.pi * 0 + Real.cos Real.pi * 10)⟩) := by
  constructor
  · simp only [Transformation.rotate, Transformation.rotateBy, Transformation.identity,
      Transformation.translate, Transformation.apply, Point2.mk.injEq]
    constructor <;> ring
  · simp only [Transformation.rotate, Transformation.rotateBy, Transformation.identity,
      Transformation.translate, Transformation.apply, Point2.mk.injEq,
      Real.cos_pi, Real.sin_pi, not_and]
    intro _
    norm_num

/-- C5 as amended: translate(dx, dy) adds the offset to the translation
column unaffected by the existing rotation (a world-frame translation): for
every angle, offset and point,
Transformation().rotate(theta).translate(dx, dy).apply(p) equals
R(theta) p + (dx, dy). -/
theorem translate_after_rotate_world_frame (theta dx dy : ℝ) (p : Point2 ℝ) :
    ((Transformation.identity.rotate theta).translate dx dy).apply p =
      ⟨Real.cos theta * p.x - Real.sin theta * p.y + dx,
       Real.sin theta * p.x + Real.cos theta * p.y + dy⟩ := by
  simp only [Transformation.rotate, Transformation.rotateBy, Transformation.identity,
    Transformation.translate, Transformation.apply, Point2.mk.injEq]
  constructor <;> ring

/-- A mutation of a ConvexPolygon: one call of ConvexPolygon::translate or
ConvexPolygon::rotate. -/
inductive PolygonOp where
  | translateOp (x y : ℝ)
  | rotateOp (angle_radians : ℝ)

/-- Perform one mutation on a polygon, as the source methods do. -/
noncomputable def applyOp (c : ConvexPolygon ℝ) : PolygonOp → ConvexPolygon ℝ
  | .translateOp x y => c.translate x y
  | .rotateOp angle_radians => c.rotate angle_radians

/-- Perform a sequence of mutations in the order they were issued. -/
noncomputable def applyOps (c : ConvexPolygon ℝ) (ops : List PolygonOp) : ConvexPolygon ℝ :=
  ops.foldl applyOp c

/-- The one-off transformation matrix of a single mutation, as built inside
ConvexPolygon::translate and ConvexPolygon::rotate. -/
noncomputable def opMatrix : PolygonOp → Transformation ℝ
  | .translateOp x y => Transformation.identity.translate x y
  | .rotateOp angle_radians => Transformation.identity.rotate angle_radians

/-- The product of the operation matrices of a call sequence, newest call on
the left. -/
noncomputable def composeAll (ops : List PolygonOp) : Transformation ℝ :=
  ops.foldl (fun acc op => (opMatrix op).compose acc) Transformation.identity

/-- The inverse matrix of one mutation. -/
noncomputable def opInv : PolygonOp → Transformation ℝ
  | .translateOp x y => Transformation.identity.translate (-x) (-y)
  | .rotateOp angle_radians => Transformation.identity.rotate (-angle_radians)

/-- The product of the inverse matrices, oldest call on the left. -/
noncomputable def invAll (ops : List PolygonOp) : Transformation ℝ :=
  ops.foldl (fun acc op => acc.compose (opInv op)) Transformation.identity

theorem Transformation.identity_apply (p : Point2 K) :
    (Transformation.identity (K := K)).apply p = p := by
  simp [Transformation.identity, Transformation.apply]

/-- Mapping a function that fixes every element leaves the list unchanged. -/
theorem map_fixpoints {α : Type} (f : α → α) (hf : ∀ a, f a = a) : ∀ l : List α, l.map f = l := by
  intro l
  induction l with
  | nil => rfl
  | cons a t ih => simp [hf, ih]

theorem opInv_cancel (op : PolygonOp) (p : Point2 ℝ) :
    (opInv op).apply ((opMatrix op).apply p) = p := by
  obtain ⟨px, py⟩ := p
  cases op with
  | translateOp x y =>
    simp only [opInv, opMatrix, Transformation.identity, Transformation.translate,
      Transformation.apply, Point2.mk.injEq]
    constructor <;> ring
  | rotateOp a =>
    simp only [opInv, opMatrix, Transformation.rotate, Transformation.rotateBy,
      Transformation.identity, Transformation.translate, Transformation.apply,
      Real.cos_neg, Real.sin_neg, Point2.mk.injEq]
    refine ⟨?_, ?_⟩
    · linear_combination px * Real.sin_sq_add_cos_sq a
    · linear_combination py * Real.sin_sq_add_cos_sq a

theorem applyOps_append (c : ConvexPolygon ℝ) (ops : List PolygonOp) (op : PolygonOp) :
    applyOps c (ops ++ [op]) = applyOp (applyOps c ops) op := by
  simp [applyOps]

theorem composeAll_append (ops : List PolygonOp) (op : PolygonOp) :
    composeAll (ops ++ [op]) = (opMatrix op).compose (composeAll ops) := by
  simp [composeAll]

theorem invAll_append (ops : List PolygonOp) (op : PolygonOp) :
    invAll (ops ++ [op]) = (invAll ops).compose (opInv op) := by
  simp [invAll]

/-- One mutation updates the tracked transformation by left-composing its
matrix and maps every vertex through its matrix. -/
theorem applyOp_fields (c : ConvexPolygon ℝ) (op : PolygonOp) :
    (applyOp c op).transformation = (opMatrix op).compose c.transformation
  ∧ (applyOp c op).vertices = c.vertices.map (opMatrix op).apply := by
  cases op with
  | translateOp x y =>
    exact ⟨Transformation.translate_eq_compose _ _ _, rfl⟩
  | rotateOp a =>
    exact ⟨Transformation.rotate_eq_compose _ _, rfl⟩

/-- The cumulative state after any call sequence: the tracked transformation
is the newest-on-the-left product of the operation matrices, and the current
vertices are the original vertices mapped through that product. -/
theorem applyOps_fields (vs : List (Point2 ℝ)) (ops : List PolygonOp) :
    (applyOps (ConvexPolygon.ofVertices vs) ops).transformation = composeAll ops
  ∧ (applyOps (ConvexPolygon.ofVertices vs) ops).vertices = vs.map (composeAll ops).apply := by
  induction ops using List.reverseRecOn with
  | nil =>
    refine ⟨rfl, ?_⟩
    simp only [applyOps, List.foldl_nil, composeAll, ConvexPolygon.ofVertices]
    exact (map_fixpoints _ Transformation.identity_apply vs).symm
  | append_singleton ops op ih =>
    rw [applyOps_append, composeAll_append]
    obtain ⟨iht, ihv⟩ := ih
    obtain ⟨ht, hv⟩ := applyOp_fields (applyOps (ConvexPolygon.ofVertices vs) ops) op
    refine ⟨by rw [ht, iht], ?_⟩
    rw [hv, ihv, List.map_map]
    exact List.map_congr_left fun p _ => (Transformation.compose_apply _ _ _).symm

theorem invAll_cancel (ops : List PolygonOp) (p : Point2 ℝ) :
    (invAll ops).apply ((composeAll ops).apply p) = p := by
  induction ops using List.reverseRecOn generalizing p with
  | nil => simp [invAll, composeAll, Transformation.identity_apply]
  | append_singleton ops op ih =>
    rw [invAll_append, composeAll_append, Transformation.compose_apply,
      Transformation.compose_apply, opInv_cancel]
    exact ih p

/-- C9: a newly constructed polygon's current_transformation() is the
identity matrix {1, 0, 0, 1, 0, 0}; after any sequence of translate and
rotate calls it equals the product of the individual operation matrices with
the newest call on the left; applying it to the construction-time vertices
yields the current vertices; and applying its inverse to the current
vertices recovers the original vertices. -/
theorem current_transformation_tracks_mutations (vs : List (Point2 ℝ)) (ops : List PolygonOp) :
    (ConvexPolygon.ofVertices vs).current_transformation = ⟨1, 0, 0, 1, 0, 0⟩
  ∧ (applyOps (ConvexPolygon.ofVertices vs) ops).current_transformation = composeAll ops
  ∧ (applyOps (ConvexPolygon.ofVertices vs) ops).vertices = vs.map (composeAll ops).apply
  ∧ ∃ tinv : Transformation ℝ,
      (∀ p : Point2 ℝ,
        tinv.apply ((applyOps (ConvexPolygon.ofVertices vs) ops).current_transformation.apply p)
          = p)
    ∧ (applyOps (ConvexPolygon.ofVertices vs) ops).vertices.map tinv.apply = vs := by
  obtain ⟨ht, hv⟩ := applyOps_fields vs ops
  refine ⟨rfl, ht, hv, invAll ops, ?_, ?_⟩
  · intro p
    rw [ConvexPolygon.current_transformation, ht]
    exact invAll_cancel ops p
  · rw [hv, List.map_map]
    exact map_fixpoints _ (fun p => invAll_cancel ops p) vs

/-- The triangle of the PackingCandidate test fixture
(src/test/beam/packing_candidate.cpp lines 34-40). -/
def testTriangle : ConvexPolygon ℚ :=
  ConvexPolygon.ofVertices [⟨0, 0⟩, ⟨50, 0⟩, ⟨25, 50⟩]

/-- The packed_objects of the ComputeScoreDouble test
(src/test/beam/packing_candidate.cpp lines 59-63): the triangle and the
triangle translated by (50, 0). -/
def testPackedObjects : List (ConvexPolygon ℚ) :=
  [testTriangle, testTriangle.translate 50 0]

/-- The root candidate of the ComputeScoreDouble test, packing the first
triangle. -/
def testParent : PackingCandidate ℚ :=
  .mk testPackedObjects (nthP testPackedObjects 0) none

/-- The child candidate of the ComputeScoreDouble test, packing the second
triangle on top of the root. -/
def testChild : PackingCandidate ℚ :=
  .mk testPackedObjects (nthP testPackedObjects 1) (some testParent)

theorem packed_eval :
    testPackedObjects =
      [⟨[⟨0, 0⟩, ⟨50, 0⟩, ⟨25, 50⟩], ⟨1, 0, 0, 1, 0, 0⟩⟩,
       ⟨[⟨50, 0⟩, ⟨100, 0⟩, ⟨75, 50⟩], ⟨1, 0, 0, 1, 50, 0⟩⟩] := by
  norm_num [testPackedObjects, testTriangle, ConvexPolygon.ofVertices, ConvexPolygon.translate,
    Transformation.translate, Transformation.identity, Transformation.apply]

theorem area_triangle_eval (t : Transformation ℚ) :
    ConvexPolygon.area ⟨[⟨0, 0⟩, ⟨50, 0⟩, ⟨25, 50⟩], t⟩ = 1250 := by
  norm_num [ConvexPolygon.area, nthV, List.range_succ]

theorem area_triangle2_eval (t : Transformation ℚ) :
    ConvexPolygon.area ⟨[⟨50, 0⟩, ⟨100, 0⟩, ⟨75, 50⟩], t⟩ = 1250 := by
  norm_num [ConvexPolygon.area, nthV, List.range_succ]

theorem chain_eval :
    testChild.chain.foldl (fun acc convex_polygon => acc + convex_polygon.area) 0 = 2500 := by
  have h := packed_eval
  simp only [testChild, testParent, PackingCandidate.chain, nthP, h]
  norm_num [area_triangle_eval, area_triangle2_eval]

/-- The two triangles of the ComputeScoreDouble test with the translation
already applied, as an explicit polygon list. -/
def hullInput : List (ConvexPolygon ℚ) :=
  [⟨[⟨0, 0⟩, ⟨50, 0⟩, ⟨25, 50⟩], ⟨1, 0, 0, 1, 0, 0⟩⟩,
   ⟨[⟨50, 0⟩, ⟨100, 0⟩, ⟨75, 50⟩], ⟨1, 0, 0, 1, 50, 0⟩⟩]

theorem chan_start_eval : chanGlobalLeftmost hullInput = some (⟨0, 0⟩, 0, 0) := by
  norm_num [chanGlobalLeftmost, chanLeftmost, hullInput, nthP, nthV, lexLt,
    ConvexPolygon.get_vertices, List.range_succ, List.cons_ne_nil]

theorem chan_rm1 : chanRightmost [(⟨50, 0⟩ : Point2 ℚ), ⟨100, 0⟩, ⟨75, 50⟩] ⟨0, 0⟩ = 1 := by
  rw [chanRightmost]
  norm_num [goesRight, nthV, is_left, Point2.magnitude2]
  rw [chanRightSearch]
  norm_num [goesRight, nthV, is_left, Point2.magnitude2]

theorem chan_rm2 : chanRightmost [(⟨0, 0⟩ : Point2 ℚ), ⟨50, 0⟩, ⟨25, 50⟩] ⟨100, 0⟩ = 2 := by
  rw [chanRightmost]
  norm_num [goesRight, nthV, is_left, Point2.magnitude2]
  rw [chanRightSearch]
  norm_num [goesRight, nthV, is_left, Point2.magnitude2]
  rw [chanRightSearch]
  norm_num

theorem chan_rm3 : chanRightmost [(⟨0, 0⟩ : Point2 ℚ), ⟨50, 0⟩, ⟨25, 50⟩] ⟨75, 50⟩ = 2 := by
  rw [chanRightmost]
  norm_num [goesRight, nthV, is_left, Point2.magnitude2]
  rw [chanRightSearch]
  norm_num [goesRight, nthV, is_left, Point2.magnitude2]
  rw [chanRightSearch]
  norm_num

theorem chan_rm4 : chanRightmost [(⟨50, 0⟩ : Point2 ℚ), ⟨100, 0⟩, ⟨75, 50⟩] ⟨25, 50⟩ = 0 := by
  rw [chanRightmost]
  norm_num [goesRight, nthV, is_left, Point2.magnitude2]

theorem chan_scan1 : chanScan hullInput ⟨0, 0⟩ 0 (⟨50, 0⟩, 1, 0) = (⟨100, 0⟩, 1, 1) := by
  norm_num [chanScan, chan_rm1, nthP, nthV, is_left, Point2.magnitude2, hullInput,
    ConvexPolygon.get_vertices, List.range_succ, List.cons_ne_nil]

theorem chan_scan2 : chanScan hullInput ⟨100, 0⟩ 1 (⟨75, 50⟩, 2, 1) = (⟨75, 50⟩, 2, 1) := by
  norm_num [chanScan, chan_rm2, nthP, nthV, is_left, Point2.magnitude2, hullInput,
    ConvexPolygon.get_vertices, List.range_succ, List.cons_ne_nil]

theorem chan_scan3 : chanScan hullInput ⟨75, 50⟩ 1 (⟨50, 0⟩, 0, 1) = (⟨25, 50⟩, 2, 0) := by
  norm_num [chanScan, chan_rm3, nthP, nthV, is_left, Point2.magnitude2, hullInput,
    ConvexPolygon.get_vertices, List.range_succ, List.cons_ne_nil]

theorem chan_scan4 : chanScan hullInput ⟨25, 50⟩ 0 (⟨0, 0⟩, 0, 0) = (⟨0, 0⟩, 0, 0) := by
  norm_num [chanScan, chan_rm4, nthP, nthV, is_left, Point2.magnitude2, hullInput,
    ConvexPolygon.get_vertices, List.range_succ, List.cons_ne_nil]

theorem hullInput_p0 :
    nthP hullInput 0 = ⟨[⟨0, 0⟩, ⟨50, 0⟩, ⟨25, 50⟩], ⟨1, 0, 0, 1, 0, 0⟩⟩ := rfl

theorem hullInput_p1 :
    nthP hullInput 1 = ⟨[⟨50, 0⟩, ⟨100, 0⟩, ⟨75, 50⟩], ⟨1, 0, 0, 1, 50, 0⟩⟩ := rfl

theorem chan_iter1 (fuel : Nat) (acc : List (Point2 ℚ)) :
    chanLoop hullInput ⟨0, 0⟩ (fuel + 1) (⟨0, 0⟩, 0, 0) acc =
      chanLoop hullInput ⟨0, 0⟩ fuel (⟨100, 0⟩, 1, 1) (acc ++ [⟨0, 0⟩]) := by
  simp only [chanLoop, hullInput_p0, hullInput_p1]
  norm_num [nthV, ConvexPolygon.get_vertices, chan_scan1, -Prod.mk_zero_zero]

theorem chan_iter2 (fuel : Nat) (acc : List (Point2 ℚ)) :
    chanLoop hullInput ⟨0, 0⟩ (fuel + 1) (⟨100, 0⟩, 1, 1) acc =
      chanLoop hullInput ⟨0, 0⟩ fuel (⟨75, 50⟩, 2, 1) (acc ++ [⟨100, 0⟩]) := by
  simp only [chanLoop, hullInput_p0, hullInput_p1]
  norm_num [nthV, ConvexPolygon.get_vertices, chan_scan2, -Prod.mk_zero_zero]

theorem chan_iter3 (fuel : Nat) (acc : List (Point2 ℚ)) :
    chanLoop hullInput ⟨0, 0⟩ (fuel + 1) (⟨75, 50⟩, 2, 1) acc =
      chanLoop hullInput ⟨0, 0⟩ fuel (⟨25, 50⟩, 2, 0) (acc ++ [⟨75, 50⟩]) := by
  simp only [chanLoop, hullInput_p0, hullInput_p1]
  norm_num [nthV, ConvexPolygon.get_vertices, chan_scan3, -Prod.mk_zero_zero]

theorem chan_iter4 (fuel : Nat) (acc : List (Point2 ℚ)) :
    chanLoop hullInput ⟨0, 0⟩ (fuel + 1) (⟨25, 50⟩, 2, 0) acc = some (acc ++ [⟨25, 50⟩]) := by
  simp only [chanLoop, hullInput_p0, hullInput_p1]
  norm_num [nthV, ConvexPolygon.get_vertices, chan_scan4, -Prod.mk_zero_zero]

theorem chanLoop_full :
    chanLoop hullInput ⟨0, 0⟩ 8 (⟨0, 0⟩, 0, 0) [] =
      some [⟨0, 0⟩, ⟨100, 0⟩, ⟨75, 50⟩, ⟨25, 50⟩] := by
  rw [show (8 : Nat) = 7 + 1 from rfl, chan_iter1,
    show (7 : Nat) = 6 + 1 from rfl, chan_iter2,
    show (6 : Nat) = 5 + 1 from rfl, chan_iter3,
    show (5 : Nat) = 4 + 1 from rfl, chan_iter4]
  rfl

theorem hull_poly_eval :
    convex_hull_polygons testChild.packed_objects =
      some (ConvexPolygon.ofVertices [⟨0, 0⟩, ⟨100, 0⟩, ⟨75, 50⟩, ⟨25, 50⟩]) := by
  have h : testChild.packed_objects = hullInput := by
    have h0 : testChild.packed_objects = testPackedObjects := rfl
    rw [h0, packed_eval]
    rfl
  rw [h]
  unfold convex_hull_polygons chans_algorithm
  rw [chan_start_eval]
  have hfuel : ((hullInput.map fun c => c.vertices.length).sum + 2) = 8 := rfl
  simp only [show hullInput.isEmpty = false from rfl, Bool.false_eq_true, if_false,
    show (hullInput.length = 1) = False from by simp [hullInput], hfuel, chanLoop_full]
  rfl

theorem hull_eval :
    (convex_hull_polygons testChild.packed_objects).map ConvexPolygon.area = some 3750 := by
  rw [hull_poly_eval]
  norm_num [ConvexPolygon.area, ConvexPolygon.ofVertices, nthV, List.range_succ]

theorem score_eval : testChild.compute_score = some (1 - 1250 / 3750) := by
  unfold PackingCandidate.compute_score
  rw [hull_poly_eval]
  have hc : testChild.packed_objects = testPackedObjects := rfl
  rw [hc, packed_eval]
  norm_num [ConvexPolygon.area, ConvexPolygon.ofVertices, nthV, List.range_succ,
    area_triangle2_eval]

/-- C1: evaluation of PackingCandidate::compute_score at the two-triangle
packing of the ComputeScoreDouble test.  The loop over packed_objects
assigns instead of summing, so covered_area ends as the area of the last
polygon (1250) rather than the combined covered area of the parent chain
(2500), and the score comes out as 1 - 1250/3750 = 2/3 instead of the
1 - 2500/3750 = 1/3 the claim describes. -/
theorem compute_score_not_combined_area :
    testChild.compute_score = some (1 - 1250 / 3750)
  ∧ testChild.chain.foldl (fun acc convex_polygon => acc + convex_polygon.area) 0 = 2500
  ∧ (convex_hull_polygons testChild.packed_objects).map ConvexPolygon.area = some 3750
  ∧ (1 : ℚ) - 1250 / 3750 = 2 / 3
  ∧ (1 : ℚ) - 2500 / 3750 = 1 / 3 := by
  refine ⟨score_eval, chain_eval, hull_eval, by norm_num, by norm_num⟩

/-- C2: in the two-triangle scenario the score of the child candidate is
2/3, not the 1/3 the spec and the ComputeScoreDouble test expect. -/
theorem two_triangles_score_not_one_third :
    testChild.get_score = some (2 / 3)
  ∧ ¬ testChild.get_score = some (1 / 3) := by
  have h := score_eval
  rw [show ((1 : ℚ) - 1250 / 3750) = 2 / 3 by norm_num] at h
  simp only [PackingCandidate.get_score]
  refine ⟨h, by rw [h]; intro hc; exact absurd (Option.some.inj hc) (by norm_num)⟩

/-! ## Infrastructure for the idempotence of gift wrapping (C4)

The walk of the gift-wrapping algorithm maintains the invariant that, seen
from the current vertex, every input point lies strictly to the right of a
reference direction u or on the closed ray spanned by u.  Inside such a
half-plane the candidate comparison performed by passStep is a strict total
order, which we witness by an explicit numeric key; the inner pass then
computes the unique key-maximal point, and re-running the algorithm on the
hull's own vertex list reproduces the same walk. -/

/-- The 2D cross product.  is_left a b q equals cross (b - a) (q - a). -/
def cross (a b : Point2 K) : K :=
  a.x * b.y - a.y * b.x

theorem is_left_eq_cross (a b q : Point2 K) : is_left a b q = cross (b - a) (q - a) := rfl

theorem cross_self (a : Point2 K) : cross a a = 0 := by
  simp only [cross]
  ring

/-- Membership in the closed-on-the-ray half-plane of the direction u: the
vector d is strictly to the right of u, or a non-negative multiple of u. -/
def InHalf (u d : Point2 K) : Prop :=
  cross u d < 0 ∨ (cross u d = 0 ∧ 0 ≤ Point2.dot u d)

/-- Every point of the list, seen from v, lies in the half-plane of u. -/
def HalfPlane (points : List (Point2 K)) (v u : Point2 K) : Prop :=
  u ≠ ⟨0, 0⟩ ∧ ∀ x ∈ points, InHalf u (x - v)

theorem magnitude2_nonneg (p : Point2 K) : 0 ≤ p.magnitude2 := by
  simp only [Point2.magnitude2]
  nlinarith [mul_self_nonneg p.x, mul_self_nonneg p.y]

theorem magnitude2_pos (p : Point2 K) (hp : p ≠ ⟨0, 0⟩) : 0 < p.magnitude2 := by
  rcases lt_or_eq_of_le (magnitude2_nonneg p) with h | h
  · exact h
  · exfalso
    apply hp
    obtain ⟨px, py⟩ := p
    simp only [Point2.magnitude2] at h
    have hx : px = 0 := by nlinarith [sq_nonneg px, sq_nonneg py]
    have hy : py = 0 := by nlinarith [sq_nonneg px, sq_nonneg py]
    simp [hx, hy]

/-- A vector with vanishing cross product against a nonzero vector is a
scalar multiple of it. -/
theorem collinear_decomp (u d : Point2 K) (hu : u ≠ ⟨0, 0⟩) (h : cross u d = 0) :
    ∃ t : K, d = ⟨t * u.x, t * u.y⟩ := by
  obtain ⟨ux, uy⟩ := u
  obtain ⟨dx, dy⟩ := d
  simp only [cross] at h
  by_cases hx : ux = 0
  · have hy : uy ≠ 0 := by
      intro hy
      exact hu (by simp [hx, hy])
    refine ⟨dy / uy, ?_⟩
    have hdx : dx = 0 := by
      rw [hx] at h
      have huydx : uy * dx = 0 := by linarith
      rcases mul_eq_zero.mp huydx with h' | h'
      · exact absurd h' hy
      · exact h'
    simp only [Point2.mk.injEq]
    constructor
    · rw [hx, hdx]; ring
    · field_simp
  · refine ⟨dx / ux, ?_⟩
    simp only [Point2.mk.injEq]
    constructor
    · field_simp
    · field_simp
      nlinarith [h]

theorem smul_cross (t : K) (u b : Point2 K) :
    cross u (⟨t * u.x, t * u.y⟩ - b) = -cross u b := by
  simp only [cross, Point2.sub_x, Point2.sub_y]
  ring

/-- Two nonzero collinear vectors of one half-plane point the same way. -/
theorem inhalf_collinear_dot_pos (u a b : Point2 K) (hu : u ≠ ⟨0, 0⟩)
    (h1 : InHalf u a) (h2 : InHalf u b) (ha : a ≠ ⟨0, 0⟩) (hb : b ≠ ⟨0, 0⟩)
    (hc : cross a b = 0) : 0 < Point2.dot a b := by
  rcases h1 with h1 | ⟨h1c, h1d⟩
  · -- a strictly right of u: a is nonzero, write b = t * a
    have hane : a ≠ ⟨0, 0⟩ := ha
    obtain ⟨t, hbt⟩ := collinear_decomp a b hane hc
    rcases h2 with h2 | ⟨h2c, h2d⟩
    · -- b strictly right as well: cross u b = t * cross u a, both negative, so t > 0
      have hcub : cross u b = t * cross u a := by
        rw [hbt]
        simp only [cross]
        ring
      have ht : 0 < t := by
        by_contra hle
        push_neg at hle
        nlinarith [hcub, h1, h2]
      have : Point2.dot a b = t * a.magnitude2 := by
        rw [hbt]
        simp only [Point2.dot, Point2.magnitude2]
        ring
      rw [this]
      exact mul_pos ht (magnitude2_pos a hane)
    · -- b on the ray of u, a strictly right of u: then cross u b = 0 forces t = 0, b = 0
      exfalso
      have hcub : cross u b = t * cross u a := by
        rw [hbt]
        simp only [cross]
        ring
      have ht : t = 0 := by
        rcases mul_eq_zero.mp (hcub ▸ h2c) with h | h
        · exact h
        · exact absurd h (ne_of_lt h1)
      apply hb
      rw [hbt, ht]
      simp
  · -- a on the ray of u
    obtain ⟨s, hat⟩ := collinear_decomp u a hu h1c
    have hs : 0 ≤ s := by
      have : Point2.dot u a = s * u.magnitude2 := by
        rw [hat]
        simp only [Point2.dot, Point2.magnitude2]
        ring
      nlinarith [magnitude2_pos u hu, h1d, this]
    have hs' : 0 < s := by
      rcases lt_or_eq_of_le hs with h | h
      · exact h
      · exfalso
        apply ha
        rw [hat, ← h]
        simp
    rcases h2 with h2 | ⟨h2c, h2d⟩
    · -- b strictly right of u, but collinear with a which is on the ray: contradiction
      exfalso
      have : cross a b = s * cross u b := by
        rw [hat]
        simp only [cross]
        ring
      nlinarith [this, hc, h2]
    · obtain ⟨r, hbt⟩ := collinear_decomp u b hu h2c
      have hr : 0 ≤ r := by
        have : Point2.dot u b = r * u.magnitude2 := by
          rw [hbt]
          simp only [Point2.dot, Point2.magnitude2]
          ring
        nlinarith [magnitude2_pos u hu, h2d, this]
      have hr' : 0 < r := by
        rcases lt_or_eq_of_le hr with h | h
        · exact h
        · exfalso
          apply hb
          rw [hbt, ← h]
          simp
      have : Point2.dot a b = s * r * u.magnitude2 := by
        rw [hat, hbt]
        simp only [Point2.dot, Point2.magnitude2]
        ring
      rw [this]
      exact mul_pos (mul_pos hs' hr') (magnitude2_pos u hu)

/-- The candidate comparison that passStep performs, phrased on difference
vectors: the candidate n beats the incumbent b (seen from last) when
is_left last b n < 0, or when the two are colinear and n is farther. -/
def betterV (n b : Point2 K) : Prop :=
  cross b n < 0 ∨ (cross b n = 0 ∧ b.magnitude2 < n.magnitude2)

/-- First key component: 1 on the strictly-right part of the half-plane,
0 on the ray of u. -/
def keyA (u d : Point2 K) : K :=
  if cross u d < 0 then 1 else 0

/-- Second key component: the cotangent-like ratio dot/cross, strictly
increasing with clockwise angle on the strictly-right part. -/
def keyB (u d : Point2 K) : K :=
  if cross u d < 0 then Point2.dot u d / cross u d else 0

/-- The strict lexicographic comparison of the keys (class, angle, squared
length).  Within the half-plane of u this is equivalent to betterV. -/
def keyGtP (u d1 d2 : Point2 K) : Prop :=
  keyA u d2 < keyA u d1 ∨
    (keyA u d1 = keyA u d2 ∧
      (keyB u d2 < keyB u d1 ∨
        (keyB u d1 = keyB u d2 ∧ d2.magnitude2 < d1.magnitude2)))

theorem keyGtP_irrefl (u d : Point2 K) : ¬ keyGtP u d d := by
  rintro (h | ⟨-, h | ⟨-, h⟩⟩) <;> exact lt_irrefl _ h

theorem keyGtP_trans (u a b c : Point2 K) (h1 : keyGtP u a b) (h2 : keyGtP u b c) :
    keyGtP u a c := by
  rcases h1 with h1 | ⟨e1, h1⟩ <;> rcases h2 with h2 | ⟨e2, h2⟩
  · exact Or.inl (lt_trans h2 h1)
  · exact Or.inl (e2 ▸ h1)
  · exact Or.inl (e1 ▸ h2)
  · refine Or.inr ⟨e1.trans e2, ?_⟩
    rcases h1 with h1 | ⟨f1, h1⟩ <;> rcases h2 with h2 | ⟨f2, h2⟩
    · exact Or.inl (lt_trans h2 h1)
    · exact Or.inl (f2 ▸ h1)
    · exact Or.inl (f1 ▸ h2)
    · exact Or.inr ⟨f1.trans f2, lt_trans h2 h1⟩

/-- Equality of all three key components. -/
def keysEq (u d1 d2 : Point2 K) : Prop :=
  keyA u d1 = keyA u d2 ∧ keyB u d1 = keyB u d2 ∧ d1.magnitude2 = d2.magnitude2

theorem keysEq_symm (u a b : Point2 K) (h : keysEq u a b) : keysEq u b a :=
  ⟨h.1.symm, h.2.1.symm, h.2.2.symm⟩

theorem keyGtP_trichotomy (u a b : Point2 K) :
    keyGtP u a b ∨ keyGtP u b a ∨ keysEq u a b := by
  rcases lt_trichotomy (keyA u a) (keyA u b) with h | h | h
  · exact Or.inr (Or.inl (Or.inl h))
  · rcases lt_trichotomy (keyB u a) (keyB u b) with h2 | h2 | h2
    · exact Or.inr (Or.inl (Or.inr ⟨h.symm, Or.inl h2⟩))
    · rcases lt_trichotomy a.magnitude2 b.magnitude2 with h3 | h3 | h3
      · exact Or.inr (Or.inl (Or.inr ⟨h.symm, Or.inr ⟨h2.symm, h3⟩⟩))
      · exact Or.inr (Or.inr ⟨h, h2, h3⟩)
      · exact Or.inl (Or.inr ⟨h, Or.inr ⟨h2, h3⟩⟩)
    · exact Or.inl (Or.inr ⟨h, Or.inl h2⟩)
  · exact Or.inl (Or.inl h)

theorem keyGtP_asymm (u a b : Point2 K) (h : keyGtP u a b) : ¬ keyGtP u b a :=
  fun h2 => keyGtP_irrefl u a (keyGtP_trans u a b a h h2)

theorem keyGtP_of_keysEq_left (u a b c : Point2 K) (he : keysEq u a b)
    (h : keyGtP u a c) : keyGtP u b c := by
  obtain ⟨e1, e2, e3⟩ := he
  unfold keyGtP at h ⊢
  rw [← e1, ← e2, ← e3]
  exact h

theorem keyGtP_not_not (u a b c : Point2 K) (h1 : ¬ keyGtP u a b) (h2 : ¬ keyGtP u b c) :
    ¬ keyGtP u a c := by
  intro h
  rcases keyGtP_trichotomy u b a with hba | hab | he
  · exact h2 (keyGtP_trans u b a c hba h)
  · exact h1 hab
  · exact h2 (keyGtP_of_keysEq_left u a b c (keysEq_symm u b a he) h)

theorem cross_antisymm (a b : Point2 K) : cross a b = -cross b a := by
  simp only [cross]
  ring

theorem cross_zero_right (u : Point2 K) : cross u ⟨0, 0⟩ = 0 := by
  simp [cross]

theorem ne_zero_of_cross_neg (u d : Point2 K) (h : cross u d < 0) : d ≠ ⟨0, 0⟩ := by
  intro hd
  rw [hd, cross_zero_right] at h
  exact lt_irrefl 0 h

/-- Lagrange-style identity linking the ratio comparison with the cross
product of the two vectors. -/
theorem dot_cross_identity (u d1 d2 : Point2 K) :
    Point2.dot u d1 * cross u d2 - Point2.dot u d2 * cross u d1 =
      u.magnitude2 * cross d1 d2 := by
  simp only [Point2.dot, cross, Point2.magnitude2]
  ring

/-- A ray member of the half-plane is a non-negative multiple of u. -/
theorem ray_decomp (u d : Point2 K) (hu : u ≠ ⟨0, 0⟩) (hc : cross u d = 0)
    (hd : 0 ≤ Point2.dot u d) : ∃ t : K, 0 ≤ t ∧ d = ⟨t * u.x, t * u.y⟩ := by
  obtain ⟨t, ht⟩ := collinear_decomp u d hu hc
  refine ⟨t, ?_, ht⟩
  have hdot : Point2.dot u d = t * u.magnitude2 := by
    rw [ht]
    simp only [Point2.dot, Point2.magnitude2]
    ring
  nlinarith [magnitude2_pos u hu, hdot]

theorem keyB_sub_eq (u d1 d2 : Point2 K) (c1 : cross u d1 < 0) (c2 : cross u d2 < 0) :
    keyB u d1 - keyB u d2 = u.magnitude2 * cross d1 d2 / (cross u d1 * cross u d2) := by
  unfold keyB
  rw [if_pos c1, if_pos c2]
  rw [div_sub_div _ _ (ne_of_lt c1) (ne_of_lt c2)]
  have h := dot_cross_identity u d1 d2
  congr 1
  linarith

theorem keyB_lt_iff (u d1 d2 : Point2 K) (hu : u ≠ ⟨0, 0⟩)
    (c1 : cross u d1 < 0) (c2 : cross u d2 < 0) :
    (keyB u d2 < keyB u d1 ↔ cross d2 d1 < 0) ∧ (keyB u d1 = keyB u d2 ↔ cross d2 d1 = 0) := by
  have hden : 0 < cross u d1 * cross u d2 := mul_pos_of_neg_of_neg c1 c2
  have hmag : 0 < u.magnitude2 := magnitude2_pos u hu
  have hsub := keyB_sub_eq u d1 d2 c1 c2
  have h21 : cross d1 d2 = -cross d2 d1 := cross_antisymm d1 d2
  constructor
  · constructor
    · intro h
      have hpos : 0 < keyB u d1 - keyB u d2 := sub_pos.mpr h
      rw [hsub] at hpos
      have : 0 < u.magnitude2 * cross d1 d2 := (div_pos_iff.mp hpos).elim
        (fun ⟨hn, _⟩ => hn) (fun ⟨_, hd⟩ => absurd hden (not_lt.mpr (le_of_lt hd)))
      nlinarith
    · intro h
      have hpos : 0 < u.magnitude2 * cross d1 d2 := by nlinarith
      have : 0 < keyB u d1 - keyB u d2 := by
        rw [hsub]
        exact div_pos hpos hden
      linarith
  · constructor
    · intro h
      have hz : keyB u d1 - keyB u d2 = 0 := by linarith
      rw [hsub] at hz
      have : u.magnitude2 * cross d1 d2 = 0 := by
        by_contra hne
        exact hne (by
          field_simp at hz
          exact hz)
      have hc : cross d1 d2 = 0 := by
        rcases mul_eq_zero.mp this with h' | h'
        · exact absurd h' (ne_of_gt hmag)
        · exact h'
      nlinarith
    · intro h
      have hc12 : cross d1 d2 = 0 := by nlinarith
      have : keyB u d1 - keyB u d2 = 0 := by
        rw [hsub, hc12]
        simp
      linarith

/-- Inside the half-plane of u, the comparison betterV agrees with the
strict lexicographic key comparison. -/
theorem betterV_iff_keyGtP (u d1 d2 : Point2 K) (hu : u ≠ ⟨0, 0⟩)
    (h1 : InHalf u d1) (h2 : InHalf u d2) : betterV d1 d2 ↔ keyGtP u d1 d2 := by
  rcases h1 with c1 | ⟨c1, e1⟩ <;> rcases h2 with c2 | ⟨c2, e2⟩
  · -- both strictly right of u
    have hA1 : keyA u d1 = 1 := if_pos c1
    have hA2 : keyA u d2 = 1 := if_pos c2
    obtain ⟨hlt, heq⟩ := keyB_lt_iff u d1 d2 hu c1 c2
    unfold betterV keyGtP
    rw [hA1, hA2]
    constructor
    · rintro (h | ⟨h, hm⟩)
      · exact Or.inr ⟨rfl, Or.inl (hlt.mpr h)⟩
      · exact Or.inr ⟨rfl, Or.inr ⟨heq.mpr h, hm⟩⟩
    · rintro (h | ⟨-, h | ⟨h, hm⟩⟩)
      · exact absurd h (lt_irrefl 1)
      · exact Or.inl (hlt.mp h)
      · exact Or.inr ⟨heq.mp h, hm⟩
  · -- d1 strictly right, d2 on the ray: d1 always beats d2
    obtain ⟨t, ht0, ht⟩ := ray_decomp u d2 hu c2 e2
    have hbet : betterV d1 d2 := by
      rcases lt_or_eq_of_le ht0 with htpos | htzero
      · refine Or.inl ?_
        have : cross d2 d1 = t * cross u d1 := by
          rw [ht]
          simp only [cross]
          ring
        rw [this]
        exact mul_neg_of_pos_of_neg htpos c1
      · refine Or.inr ⟨?_, ?_⟩
        · rw [ht, ← htzero]
          simp only [cross]
          ring
        · have hd2z : d2 = ⟨0, 0⟩ := by
            rw [ht, ← htzero]
            simp
          rw [hd2z]
          have : (⟨0, 0⟩ : Point2 K).magnitude2 = 0 := by simp [Point2.magnitude2]
          rw [this]
          exact magnitude2_pos d1 (ne_zero_of_cross_neg u d1 c1)
    have hkey : keyGtP u d1 d2 := by
      refine Or.inl ?_
      rw [keyA, keyA, if_pos c1, if_neg (not_lt.mpr (le_of_eq c2.symm))]
      exact zero_lt_one
    exact ⟨fun _ => hkey, fun _ => hbet⟩
  · -- d1 on the ray, d2 strictly right: d1 never beats d2
    obtain ⟨s, hs0, hs⟩ := ray_decomp u d1 hu c1 e1
    have hnbet : ¬ betterV d1 d2 := by
      have hcr : cross d2 d1 = s * -cross u d2 := by
        rw [hs]
        simp only [cross]
        ring
      rintro (h | ⟨h, hm⟩)
      · rw [hcr] at h
        nlinarith
      · rw [hcr] at h
        have hsz : s = 0 := by
          rcases mul_eq_zero.mp h with h' | h'
          · exact h'
          · nlinarith
        have hd1z : d1 = ⟨0, 0⟩ := by
          rw [hs, hsz]
          simp
        rw [hd1z] at hm
        have : (⟨0, 0⟩ : Point2 K).magnitude2 = 0 := by simp [Point2.magnitude2]
        rw [this] at hm
        exact absurd hm (not_lt.mpr (magnitude2_nonneg d2))
    have hnkey : ¬ keyGtP u d1 d2 := by
      rintro (h | ⟨h, -⟩)
      · rw [keyA, keyA, if_pos c2, if_neg (not_lt.mpr (le_of_eq c1.symm))] at h
        exact absurd h (not_lt.mpr zero_le_one)
      · rw [keyA, keyA, if_pos c2, if_neg (not_lt.mpr (le_of_eq c1.symm))] at h
        exact one_ne_zero h.symm
    exact ⟨fun h => absurd h hnbet, fun h => absurd h hnkey⟩
  · -- both on the ray
    obtain ⟨s, _hs0, hs⟩ := ray_decomp u d1 hu c1 e1
    obtain ⟨t, _ht0, ht⟩ := ray_decomp u d2 hu c2 e2
    have hcr : cross d2 d1 = 0 := by
      rw [hs, ht]
      simp only [cross]
      ring
    have hA1 : keyA u d1 = 0 := if_neg (not_lt.mpr (le_of_eq c1.symm))
    have hA2 : keyA u d2 = 0 := if_neg (not_lt.mpr (le_of_eq c2.symm))
    have hB1 : keyB u d1 = 0 := by
      rw [keyB, if_neg (not_lt.mpr (le_of_eq c1.symm))]
    have hB2 : keyB u d2 = 0 := by
      rw [keyB, if_neg (not_lt.mpr (le_of_eq c2.symm))]
    unfold betterV keyGtP
    rw [hA1, hA2, hB1, hB2, hcr]
    constructor
    · rintro (h | ⟨-, hm⟩)
      · exact absurd h (lt_irrefl 0)
      · exact Or.inr ⟨rfl, Or.inr ⟨rfl, hm⟩⟩
    · rintro (h | ⟨-, h | ⟨-, hm⟩⟩)
      · exact absurd h (lt_irrefl 0)
      · exact absurd h (lt_irrefl 0)
      · exact Or.inr ⟨rfl, hm⟩

/-- Inside the half-plane of u, equal keys mean equal vectors. -/
theorem keysEq_inj (u d1 d2 : Point2 K) (hu : u ≠ ⟨0, 0⟩)
    (h1 : InHalf u d1) (h2 : InHalf u d2) (he : keysEq u d1 d2) : d1 = d2 := by
  obtain ⟨eA, eB, eM⟩ := he
  rcases h1 with c1 | ⟨c1, e1⟩ <;> rcases h2 with c2 | ⟨c2, e2⟩
  · -- both strictly right: equal ratio forces colinearity, equal length forces equality
    obtain ⟨-, heq⟩ := keyB_lt_iff u d1 d2 hu c1 c2
    have hcr : cross d2 d1 = 0 := heq.mp eB
    have hd1 : d1 ≠ ⟨0, 0⟩ := ne_zero_of_cross_neg u d1 c1
    have hcr' : cross d1 d2 = 0 := by
      rw [cross_antisymm d1 d2, hcr, neg_zero]
    obtain ⟨t, ht⟩ := collinear_decomp d1 d2 hd1 hcr'
    have hcu : cross u d2 = t * cross u d1 := by
      rw [ht]
      simp only [cross]
      ring
    have htpos : 0 < t := by
      by_contra hle
      push_neg at hle
      nlinarith
    have hmag : d2.magnitude2 = t * t * d1.magnitude2 := by
      rw [ht]
      simp only [Point2.magnitude2]
      ring
    have hm1 : 0 < d1.magnitude2 := magnitude2_pos d1 hd1
    have ht2 : (1 : K) = t * t := by
      have h3 : (1 : K) * d1.magnitude2 = (t * t) * d1.magnitude2 := by
        rw [one_mul]
        linarith [eM, hmag]
      exact mul_right_cancel₀ (ne_of_gt hm1) h3
    have h4 : (t - 1) * (t + 1) = 0 := by linear_combination ht2.symm
    have ht1 : t = 1 := by
      rcases mul_eq_zero.mp h4 with h5 | h5
      · linarith
      · linarith
    rw [ht, ht1]
    obtain ⟨x, y⟩ := d1
    simp
  · exfalso
    rw [keyA, keyA, if_pos c1, if_neg (not_lt.mpr (le_of_eq c2.symm))] at eA
    exact one_ne_zero eA
  · exfalso
    rw [keyA, keyA, if_pos c2, if_neg (not_lt.mpr (le_of_eq c1.symm))] at eA
    exact one_ne_zero eA.symm
  · obtain ⟨s, hs0, hs⟩ := ray_decomp u d1 hu c1 e1
    obtain ⟨t, ht0, ht⟩ := ray_decomp u d2 hu c2 e2
    have hm1 : d1.magnitude2 = s * s * u.magnitude2 := by
      rw [hs]
      simp only [Point2.magnitude2]
      ring
    have hm2 : d2.magnitude2 = t * t * u.magnitude2 := by
      rw [ht]
      simp only [Point2.magnitude2]
      ring
    have hmu : 0 < u.magnitude2 := magnitude2_pos u hu
    have h2 : s * s = t * t := by
      have h3 : (s * s) * u.magnitude2 = (t * t) * u.magnitude2 := by
        linarith [eM, hm1, hm2]
      exact mul_right_cancel₀ (ne_of_gt hmu) h3
    have h4 : (s - t) * (s + t) = 0 := by linear_combination h2
    have hst : s = t := by
      rcases mul_eq_zero.mp h4 with h5 | h5
      · linarith
      · have hs' : s = 0 := by linarith
        have ht' : t = 0 := by linarith
        rw [hs', ht']
    rw [hs, ht, hst]

/-- The update of the inner scan is exactly the betterV comparison. -/
theorem passStep_eq (last best next : Point2 K) :
    (betterV (next - last) (best - last) → passStep last best next = next)
  ∧ (¬ betterV (next - last) (best - last) → passStep last best next = best) := by
  unfold passStep betterV
  rw [is_left_eq_cross]
  constructor
  · rintro (h | ⟨h, hm⟩)
    · rw [if_pos h]
    · rw [if_neg (not_lt.mpr (le_of_eq h.symm)), if_pos h, if_pos hm]
  · intro h
    push_neg at h
    obtain ⟨h1, h2⟩ := h
    rcases lt_or_eq_of_le h1 with hlt | heq
    · rw [if_neg (not_lt.mpr h1), if_neg (ne_of_gt hlt)]
    · rw [if_neg (not_lt.mpr h1), if_pos heq.symm, if_neg (not_lt.mpr (h2 heq.symm))]

/-- A candidate equal to the scan origin never wins. -/
theorem not_betterV_self_base (v b : Point2 K) : ¬ betterV (v - v) (b - v) := by
  rintro (h | ⟨h, hm⟩)
  · have : v - v = (⟨0, 0⟩ : Point2 K) := by
      obtain ⟨x, y⟩ := v
      simp [Point2.sub_def]
    rw [this, cross_zero_right] at h
    exact lt_irrefl 0 h
  · have : v - v = (⟨0, 0⟩ : Point2 K) := by
      obtain ⟨x, y⟩ := v
      simp [Point2.sub_def]
    rw [this] at hm
    have hz : (⟨0, 0⟩ : Point2 K).magnitude2 = 0 := by simp [Point2.magnitude2]
    rw [hz] at hm
    exact absurd hm (not_lt.mpr (magnitude2_nonneg _))

theorem betterV_irrefl (d : Point2 K) : ¬ betterV d d := by
  rintro (h | ⟨-, hm⟩)
  · rw [cross_self] at h
    exact lt_irrefl 0 h
  · exact lt_irrefl _ hm

/-- The fold of passStep over a list of half-plane members computes a
key-maximal element. -/
theorem foldl_passStep_max (v u : Point2 K) (hu : u ≠ ⟨0, 0⟩) :
    ∀ (l : List (Point2 K)) (b : Point2 K),
      (∀ x ∈ l, InHalf u (x - v)) → InHalf u (b - v) → b ≠ v →
      (l.foldl (passStep v) b ∈ l ∨ l.foldl (passStep v) b = b)
    ∧ l.foldl (passStep v) b ≠ v
    ∧ InHalf u (l.foldl (passStep v) b - v)
    ∧ ¬ keyGtP u (b - v) (l.foldl (passStep v) b - v)
    ∧ ∀ y ∈ l, ¬ keyGtP u (y - v) (l.foldl (passStep v) b - v) := by
  intro l
  induction l with
  | nil =>
    intro b _ hb hbv
    refine ⟨Or.inr rfl, hbv, hb, ?_, by simp⟩
    exact keyGtP_irrefl u (b - v)
  | cons n tl ih =>
    intro b hl hb hbv
    have hn : InHalf u (n - v) := hl n (List.mem_cons_self n tl)
    have htl : ∀ x ∈ tl, InHalf u (x - v) := fun x hx => hl x (List.mem_cons_of_mem n hx)
    by_cases hbet : betterV (n - v) (b - v)
    · -- the scan advances to n
      have hstep : passStep v b n = n := (passStep_eq v b n).1 hbet
      have hnv : n ≠ v := by
        intro hnv
        rw [hnv] at hbet
        exact not_betterV_self_base v b hbet
      have hkey : keyGtP u (n - v) (b - v) := (betterV_iff_keyGtP u _ _ hu hn hb).mp hbet
      obtain ⟨hmem, hne, hin, hbase, hdom⟩ := ih n htl hn hnv
      rw [List.foldl_cons, hstep]
      refine ⟨?_, hne, hin, ?_, ?_⟩
      · rcases hmem with h | h
        · exact Or.inl (List.mem_cons_of_mem n h)
        · exact Or.inl (by rw [h]; exact List.mem_cons_self n tl)
      · -- b is dominated: b < n ≤ result
        intro hcon
        exact hbase (keyGtP_trans u _ _ _ hkey hcon)
      · intro y hy
        rcases List.mem_cons.mp hy with hy | hy
        · rw [hy]
          exact hbase
        · exact hdom y hy
    · -- the incumbent survives
      have hstep : passStep v b n = b := (passStep_eq v b n).2 hbet
      have hnkey : ¬ keyGtP u (n - v) (b - v) := fun hk =>
        hbet ((betterV_iff_keyGtP u _ _ hu hn hb).mpr hk)
      obtain ⟨hmem, hne, hin, hbase, hdom⟩ := ih b htl hb hbv
      rw [List.foldl_cons, hstep]
      refine ⟨?_, hne, hin, hbase, ?_⟩
      · rcases hmem with h | h
        · exact Or.inl (List.mem_cons_of_mem n h)
        · exact Or.inr h
      · intro y hy
        rcases List.mem_cons.mp hy with hy | hy
        · rw [hy]
          exact keyGtP_not_not u _ _ _ hnkey hbase
        · exact hdom y hy

theorem point_sub_eq_zero_iff (a b : Point2 K) : a - b = ⟨0, 0⟩ ↔ a = b := by
  obtain ⟨ax, ay⟩ := a
  obtain ⟨bx, by'⟩ := b
  simp only [Point2.sub_def, Point2.mk.injEq]
  constructor
  · rintro ⟨h1, h2⟩
    exact ⟨by linarith, by linarith⟩
  · rintro ⟨h1, h2⟩
    exact ⟨by linarith, by linarith⟩

/-- The inner pass returns an element of the list or the scan origin. -/
theorem innerPass_mem (points : List (Point2 K)) (last : Point2 K) :
    innerPass points last ∈ points ∨ innerPass points last = last := by
  have hstep_mem : ∀ b n : Point2 K, passStep last b n = n ∨ passStep last b n = b := by
    intro b n
    simp only [passStep]
    split_ifs <;> first
      | exact Or.inl rfl
      | exact Or.inr rfl
  have hfold : ∀ (l : List (Point2 K)) (b : Point2 K), b ∈ points ∨ b = last →
      (∀ x ∈ l, x ∈ points) →
      l.foldl (passStep last) b ∈ points ∨ l.foldl (passStep last) b = last := by
    intro l
    induction l with
    | nil => intro b hb _; exact hb
    | cons n tl ih =>
      intro b hb hl
      rw [List.foldl_cons]
      refine ih (passStep last b n) ?_ (fun x hx => hl x (List.mem_cons_of_mem n hx))
      rcases hstep_mem b n with h | h
      · rw [h]
        exact Or.inl (hl n (List.mem_cons_self n tl))
      · rw [h]
        exact hb
  unfold innerPass
  cases hfind : points.find? fun candidate => decide (candidate ≠ last) with
  | none =>
    simp only [Option.getD_none]
    exact hfold points last (Or.inr rfl) (fun x hx => hx)
  | some b0 =>
    simp only [Option.getD_some]
    exact hfold points b0 (Or.inl (List.mem_of_find?_eq_some hfind)) (fun x hx => hx)

/-- Full characterisation of the inner pass under the half-plane invariant:
it returns a member different from the scan origin that no point beats. -/
theorem innerPass_max (points : List (Point2 K)) (v u : Point2 K)
    (hHP : HalfPlane points v u) (hex : ∃ x ∈ points, x ≠ v) :
    innerPass points v ∈ points ∧ innerPass points v ≠ v ∧
      InHalf u (innerPass points v - v) ∧
      ∀ x ∈ points, ¬ betterV (x - v) (innerPass points v - v) := by
  obtain ⟨hu, hin⟩ := hHP
  obtain ⟨x0, hx0m, hx0⟩ := hex
  have hfind : ∃ b, (points.find? fun candidate => decide (candidate ≠ v)) = some b := by
    rw [← Option.isSome_iff_exists, List.find?_isSome]
    exact ⟨x0, hx0m, decide_eq_true hx0⟩
  obtain ⟨b0, hb0⟩ := hfind
  have hb0m : b0 ∈ points := List.mem_of_find?_eq_some hb0
  have hb0v : b0 ≠ v := by
    have h := List.find?_some hb0
    simpa using h
  unfold innerPass
  rw [hb0]
  simp only [Option.getD_some]
  obtain ⟨hmem, hne, hin', _hbase, hdom⟩ :=
    foldl_passStep_max v u hu points b0 (fun x hx => hin x hx) (hin b0 hb0m) hb0v
  refine ⟨?_, hne, hin', ?_⟩
  · rcases hmem with h | h
    · exact h
    · rw [h]
      exact hb0m
  · intro x hx hbet
    exact hdom x hx ((betterV_iff_keyGtP u _ _ hu (hin x hx) hin').mp hbet)

theorem cross_flip (v m x : Point2 K) : cross (v - m) (x - m) = -cross (m - v) (x - v) := by
  simp only [cross, Point2.sub_x, Point2.sub_y]
  ring

/-- The half-plane invariant propagates from the scan origin to the chosen
maximum: seen from the new vertex m, every point is strictly right of the
direction back to v or on the closed segment towards v. -/
theorem halfplane_step (points : List (Point2 K)) (v u m : Point2 K) (hu : u ≠ ⟨0, 0⟩)
    (hin : ∀ x ∈ points, InHalf u (x - v)) (hm : InHalf u (m - v)) (hmv : m ≠ v)
    (hdom : ∀ x ∈ points, ¬ betterV (x - v) (m - v)) :
    HalfPlane points m (v - m) := by
  have hM : m - v ≠ ⟨0, 0⟩ := fun h => hmv ((point_sub_eq_zero_iff m v).mp h)
  refine ⟨fun h => hmv ((point_sub_eq_zero_iff v m).mp h).symm, ?_⟩
  intro x hx
  have hd := hdom x hx
  unfold betterV at hd
  push_neg at hd
  obtain ⟨hd1, hd2⟩ := hd
  have hd1' : 0 ≤ cross (m - v) (x - v) := hd1
  rcases lt_or_eq_of_le hd1' with hpos | hzero
  · -- strictly left of the old edge: strictly right of the return direction
    refine Or.inl ?_
    rw [cross_flip]
    linarith
  · -- colinear with the old edge: on the closed segment from v to m
    have hmag : (x - v).magnitude2 ≤ (m - v).magnitude2 := hd2 hzero.symm
    by_cases hxv : x - v = ⟨0, 0⟩
    · -- x coincides with v: the vector x - m is exactly v - m
      have hxvv : x = v := (point_sub_eq_zero_iff x v).mp hxv
      refine Or.inr ⟨?_, ?_⟩
      · rw [hxvv, cross_self]
      · rw [hxvv]
        have : Point2.dot (v - m) (v - m) = (v - m).magnitude2 := by
          simp only [Point2.dot, Point2.magnitude2]
        rw [this]
        exact magnitude2_nonneg (v - m)
    · obtain ⟨t, ht⟩ := collinear_decomp (m - v) (x - v) hM hzero.symm
      have hdot : 0 < Point2.dot (m - v) (x - v) :=
        inhalf_collinear_dot_pos u (m - v) (x - v) hu hm (hin x hx) hM hxv hzero.symm
      have hdott : Point2.dot (m - v) (x - v) = t * (m - v).magnitude2 := by
        rw [ht]
        simp only [Point2.dot, Point2.magnitude2]
        ring
      have hmagpos : 0 < (m - v).magnitude2 := magnitude2_pos (m - v) hM
      have htpos : 0 < t := by nlinarith
      have hmagt : (x - v).magnitude2 = t * t * (m - v).magnitude2 := by
        rw [ht]
        simp only [Point2.magnitude2]
        ring
      have ht1 : t ≤ 1 := by nlinarith
      -- the x and y components of x - m relative to m - v
      have hcx : (x - v).x = t * (m - v).x := by rw [ht]
      have hcy : (x - v).y = t * (m - v).y := by rw [ht]
      simp only [Point2.sub_x, Point2.sub_y] at hcx hcy
      refine Or.inr ⟨?_, ?_⟩
      · simp only [cross, Point2.sub_x, Point2.sub_y]
        linear_combination (v.x - m.x) * hcy - (v.y - m.y) * hcx
      · simp only [Point2.dot, Point2.sub_x, Point2.sub_y]
        have hexp : (v.x - m.x) * (x.x - m.x) + (v.y - m.y) * (x.y - m.y) =
            (1 - t) * ((m.x - v.x) * (m.x - v.x) + (m.y - v.y) * (m.y - v.y)) := by
          have hx1 : x.x - m.x = (t - 1) * (m.x - v.x) := by linarith
          have hy1 : x.y - m.y = (t - 1) * (m.y - v.y) := by linarith
          rw [show (v.x - m.x) * (x.x - m.x) + (v.y - m.y) * (x.y - m.y) =
              -(m.x - v.x) * (x.x - m.x) + -(m.y - v.y) * (x.y - m.y) from by ring,
            hx1, hy1]
          ring
        rw [hexp]
        have hmag2 : 0 ≤ (m.x - v.x) * (m.x - v.x) + (m.y - v.y) * (m.y - v.y) := by
          nlinarith [mul_self_nonneg (m.x - v.x), mul_self_nonneg (m.y - v.y)]
        nlinarith

/-- The abstract shape of a terminating run of the gift-wrapping do-while
loop over the point list of its first argument: from the current vertex the
walk either closes (the inner pass returns the first hull vertex r0) or
steps to the vertex the inner pass chose. -/
inductive Walk (points : List (Point2 K)) (r0 : Point2 K) : Point2 K → List (Point2 K) → Prop
  | stop (last : Point2 K) :
      innerPass points last = r0 → Walk points r0 last [last]
  | step (last : Point2 K) (tail : List (Point2 K)) :
      innerPass points last ≠ r0 →
      Walk points r0 (innerPass points last) tail →
      Walk points r0 last (last :: tail)

theorem walk_head (points : List (Point2 K)) (r0 last : Point2 K) (tail : List (Point2 K))
    (h : Walk points r0 last tail) : ∃ t2, tail = last :: t2 := by
  cases h with
  | stop _ _ => exact ⟨[], rfl⟩
  | step _ t _ _ => exact ⟨t, rfl⟩

theorem walk_ne_nil (points : List (Point2 K)) (r0 last : Point2 K) (tail : List (Point2 K))
    (h : Walk points r0 last tail) : tail ≠ [] := by
  obtain ⟨t2, ht⟩ := walk_head points r0 last tail h
  rw [ht]
  exact List.cons_ne_nil last t2

/-- Every vertex a walk visits is an input point (provided its start is). -/
theorem walk_subset (points : List (Point2 K)) (r0 : Point2 K) :
    ∀ (tail : List (Point2 K)) (last : Point2 K), Walk points r0 last tail →
      last ∈ points → ∀ y ∈ tail, y ∈ points := by
  intro tail
  induction tail with
  | nil => intro last h _; exact absurd rfl (walk_ne_nil points r0 last [] h)
  | cons a t2 ih =>
    intro last h hlast y hy
    cases h with
    | stop _ _ =>
      rcases List.mem_cons.mp hy with hy | hy
      · rw [hy]; exact hlast
      · exact absurd hy (List.not_mem_nil y)
    | step _ _ hne hw =>
      rcases List.mem_cons.mp hy with hy | hy
      · rw [hy]; exact hlast
      · refine ih (innerPass points a) hw ?_ y hy
        rcases innerPass_mem points a with h | h
        · exact h
        · rw [h]; exact hlast

theorem gwLoop_zero (points : List (Point2 K)) (r0 last : Point2 K) (acc : List (Point2 K)) :
    gwLoop points r0 0 last acc = none := rfl

theorem gwLoop_succ (points : List (Point2 K)) (r0 last : Point2 K)
    (fuel : Nat) (acc : List (Point2 K)) :
    gwLoop points r0 (fuel + 1) last acc =
      if innerPass points last = r0 then some (acc ++ [last])
      else gwLoop points r0 fuel (innerPass points last) (acc ++ [last]) := rfl

/-- A terminating run of gwLoop is a Walk appended after the accumulator. -/
theorem gwLoop_to_walk (points : List (Point2 K)) (r0 : Point2 K) :
    ∀ (fuel : Nat) (last : Point2 K) (acc L : List (Point2 K)),
      gwLoop points r0 fuel last acc = some L →
      ∃ tail, L = acc ++ tail ∧ Walk points r0 last tail := by
  intro fuel
  induction fuel with
  | zero =>
    intro last acc L h
    rw [gwLoop_zero] at h
    exact absurd h (by simp)
  | succ fuel ih =>
    intro last acc L h
    rw [gwLoop_succ] at h
    by_cases hb : innerPass points last = r0
    · rw [if_pos hb] at h
      refine ⟨[last], ?_, Walk.stop last hb⟩
      exact (Option.some.inj h).symm
    · rw [if_neg hb] at h
      obtain ⟨tail2, hL, hw⟩ := ih (innerPass points last) (acc ++ [last]) L h
      refine ⟨last :: tail2, ?_, Walk.step last tail2 hb hw⟩
      rw [hL]
      simp

/-- A Walk replays as a terminating run of gwLoop whenever the fuel covers
its length. -/
theorem walk_to_gwLoop (points : List (Point2 K)) (r0 : Point2 K) :
    ∀ (tail : List (Point2 K)) (last : Point2 K), Walk points r0 last tail →
      ∀ (acc : List (Point2 K)) (fuel : Nat), tail.length ≤ fuel →
        gwLoop points r0 fuel last acc = some (acc ++ tail) := by
  intro tail
  induction tail with
  | nil => intro last h; exact absurd rfl (walk_ne_nil points r0 last [] h)
  | cons a t2 ih =>
    intro last h acc fuel hfuel
    cases h with
    | stop _ hstop =>
      cases fuel with
      | zero => exact absurd hfuel (by simp)
      | succ fuel => rw [gwLoop_succ, if_pos hstop]
    | step _ _ hne hw =>
      cases fuel with
      | zero =>
        exfalso
        simp only [List.length_cons] at hfuel
        omega
      | succ fuel =>
        rw [gwLoop_succ, if_neg hne]
        have hlen : t2.length ≤ fuel := by
          simp only [List.length_cons] at hfuel
          omega
        rw [ih (innerPass points a) hw (acc ++ [a]) fuel hlen]
        simp

theorem lexLt_true_iff (a b : Point2 K) :
    lexLt a b = true ↔ (a.x < b.x ∨ (a.x = b.x ∧ a.y < b.y)) := by
  simp [lexLt]

theorem lexLt_false_iff (a b : Point2 K) :
    lexLt a b = false ↔ (b.x ≤ a.x ∧ (a.x = b.x → b.y ≤ a.y)) := by
  rw [← Bool.not_eq_true, lexLt_true_iff]
  push_neg
  constructor
  · rintro ⟨h1, h2⟩
    exact ⟨h1, fun he => h2 he⟩
  · rintro ⟨h1, h2⟩
    exact ⟨h1, h2⟩

theorem lexLt_le_trans (a b c : Point2 K) (h1 : lexLt b a = false) (h2 : lexLt c b = false) :
    lexLt c a = false := by
  rw [lexLt_false_iff] at h1 h2 ⊢
  obtain ⟨h1x, h1y⟩ := h1
  obtain ⟨h2x, h2y⟩ := h2
  refine ⟨le_trans h1x h2x, fun he => ?_⟩
  have hbx : b.x = a.x := le_antisymm (by linarith) h1x
  have hcb : b.x = c.x := by linarith
  have := h1y hbx
  have := h2y hcb.symm
  linarith

theorem lexLt_absurd (r c b : Point2 K) (h1 : lexLt c r = false) (h2 : lexLt c b = true)
    (h3 : lexLt b r = true) : False := by
  rw [lexLt_false_iff] at h1
  rw [lexLt_true_iff] at h2 h3
  obtain ⟨h1x, h1y⟩ := h1
  rcases h2 with h2 | ⟨h2x, h2y⟩ <;> rcases h3 with h3 | ⟨h3x, h3y⟩
  · linarith
  · linarith
  · linarith
  · have := h1y (by linarith)
    linarith

/-- The running minimum of the std::min_element fold: no element of the
scanned list nor the base compares strictly below the result, and the result
is the base or a member. -/
theorem foldl_lexmin (xs : List (Point2 K)) : ∀ b : Point2 K,
    (xs.foldl (fun best c => if lexLt c best then c else best) b = b ∨
      xs.foldl (fun best c => if lexLt c best then c else best) b ∈ xs)
  ∧ lexLt b (xs.foldl (fun best c => if lexLt c best then c else best) b) = false
  ∧ ∀ y ∈ xs, lexLt y (xs.foldl (fun best c => if lexLt c best then c else best) b) = false := by
  induction xs with
  | nil =>
    intro b
    refine ⟨Or.inl rfl, ?_, by simp⟩
    rw [lexLt_false_iff]
    exact ⟨le_refl _, fun _ => le_refl _⟩
  | cons c tl ih =>
    intro b
    rw [List.foldl_cons]
    by_cases hc : lexLt c b = true
    · rw [if_pos hc]
      obtain ⟨hmem, hbase, hall⟩ := ih c
      refine ⟨?_, ?_, ?_⟩
      · rcases hmem with h | h
        · exact Or.inr (by rw [h]; exact List.mem_cons_self c tl)
        · exact Or.inr (List.mem_cons_of_mem c h)
      · -- b never beats the result: the result is at most c which is below b
        by_contra hcon
        rw [Bool.not_eq_false] at hcon
        exact lexLt_absurd _ _ _ hbase hc hcon
      · intro y hy
        rcases List.mem_cons.mp hy with hy | hy
        · rw [hy]; exact hbase
        · exact hall y hy
    · rw [if_neg hc]
      rw [Bool.not_eq_true] at hc
      obtain ⟨hmem, hbase, hall⟩ := ih b
      refine ⟨?_, hbase, ?_⟩
      · rcases hmem with h | h
        · exact Or.inl h
        · exact Or.inr (List.mem_cons_of_mem c h)
      · intro y hy
        rcases List.mem_cons.mp hy with hy | hy
        · rw [hy]
          exact lexLt_le_trans _ _ _ hbase hc
        · exact hall y hy

theorem first_min_mem (l : List (Point2 K)) (hne : l ≠ []) : first_min l ∈ l := by
  cases l with
  | nil => exact absurd rfl hne
  | cons x xs =>
    rw [first_min]
    obtain ⟨hmem, -, -⟩ := foldl_lexmin xs x
    rcases hmem with h | h
    · rw [h]; exact List.mem_cons_self x xs
    · exact List.mem_cons_of_mem x h

theorem first_min_min (l : List (Point2 K)) (hne : l ≠ []) :
    ∀ x ∈ l, lexLt x (first_min l) = false := by
  cases l with
  | nil => exact absurd rfl hne
  | cons x xs =>
    rw [first_min]
    obtain ⟨-, hbase, hall⟩ := foldl_lexmin xs x
    intro y hy
    rcases List.mem_cons.mp hy with hy | hy
    · rw [hy]; exact hbase
    · exact hall y hy

/-- When nothing in the rest of the list compares below the head, the head is
the first minimum. -/
theorem first_min_cons_eq (r0 : Point2 K) (t : List (Point2 K))
    (h : ∀ x ∈ t, lexLt x r0 = false) : first_min (r0 :: t) = r0 := by
  rw [first_min]
  induction t with
  | nil => rfl
  | cons c tl ih =>
    rw [List.foldl_cons, if_neg ?_]
    · exact ih (fun x hx => h x (List.mem_cons_of_mem c hx))
    · rw [h c (List.mem_cons_self c tl)]
      simp

/-- The starting vertex of the walk sees every point inside the half-plane
of the upward direction (0, 1). -/
theorem halfplane_initial (points : List (Point2 K)) (hne : points ≠ []) :
    HalfPlane points (first_min points) ⟨0, 1⟩ := by
  refine ⟨?_, ?_⟩
  · intro h
    rw [Point2.mk.injEq] at h
    exact one_ne_zero h.2
  · intro x hx
    have h := first_min_min points hne x hx
    rw [lexLt_false_iff] at h
    obtain ⟨hx1, hx2⟩ := h
    rcases lt_or_eq_of_le hx1 with hlt | heq
    · refine Or.inl ?_
      simp only [cross, Point2.sub_x, Point2.sub_y]
      linarith
    · refine Or.inr ⟨?_, ?_⟩
      · simp only [cross, Point2.sub_x, Point2.sub_y]
        linarith
      · simp only [Point2.dot, Point2.sub_x, Point2.sub_y]
        have := hx2 heq.symm
        linarith

theorem Point2.ext2 (a b : Point2 K) (hx : a.x = b.x) (hy : a.y = b.y) : a = b := by
  obtain ⟨ax, ay⟩ := a
  obtain ⟨bx, by'⟩ := b
  simp_all

/-- Restricting the scan to a sublist containing the chosen maximum does not
change the result: both scans compute the unique key-maximal element. -/
theorem innerPass_restrict (points L : List (Point2 K)) (l u : Point2 K)
    (hLP : ∀ y ∈ L, y ∈ points)
    (hhp : HalfPlane points l u)
    (hex : ∃ x ∈ L, x ≠ l)
    (hmem : innerPass points l ∈ L) :
    innerPass L l = innerPass points l := by
  obtain ⟨hu, hin⟩ := hhp
  have hexP : ∃ x ∈ points, x ≠ l := by
    obtain ⟨x, hx, hxl⟩ := hex
    exact ⟨x, hLP x hx, hxl⟩
  have hhpL : HalfPlane L l u := ⟨hu, fun x hx => hin x (hLP x hx)⟩
  obtain ⟨hPmem, hPne, hPin, hPdom⟩ := innerPass_max points l u ⟨hu, hin⟩ hexP
  obtain ⟨hLmem, hLne, hLin, hLdom⟩ := innerPass_max L l u hhpL hex
  have h1 : ¬ keyGtP u (innerPass L l - l) (innerPass points l - l) := by
    intro hk
    exact hPdom (innerPass L l) (hLP _ hLmem)
      ((betterV_iff_keyGtP u _ _ hu hLin hPin).mpr hk)
  have h2 : ¬ keyGtP u (innerPass points l - l) (innerPass L l - l) := by
    intro hk
    exact hLdom (innerPass points l) hmem
      ((betterV_iff_keyGtP u _ _ hu hPin hLin).mpr hk)
  have hkeys : keysEq u (innerPass L l - l) (innerPass points l - l) := by
    rcases keyGtP_trichotomy u (innerPass L l - l) (innerPass points l - l) with h | h | h
    · exact absurd h h1
    · exact absurd h h2
    · exact h
  have heq := keysEq_inj u _ _ hu hLin hPin hkeys
  have hx := congrArg Point2.x heq
  have hy := congrArg Point2.y heq
  simp only [Point2.sub_x, Point2.sub_y] at hx hy
  exact Point2.ext2 _ _ (by linarith) (by linarith)

/-- The heart of the idempotence proof: a walk over the full point list is
also a walk over its own list of visited vertices, because at every vertex
the inner pass over the sublist picks the same unique maximum. -/
theorem walk_rerun (points L : List (Point2 K)) (r0 : Point2 K)
    (hLP : ∀ y ∈ L, y ∈ points) (hr0 : r0 ∈ L) :
    ∀ (tail : List (Point2 K)) (last : Point2 K) (u : Point2 K),
      Walk points r0 last tail →
      HalfPlane points last u →
      (∃ x ∈ L, x ≠ last) →
      (∀ y ∈ tail, y ∈ L) →
      Walk L r0 last tail := by
  intro tail last u hw
  induction hw generalizing u with
  | stop l hstop =>
    intro hhp hex htail
    refine Walk.stop l ?_
    rw [innerPass_restrict points L l u hLP hhp hex (by rw [hstop]; exact hr0)]
    exact hstop
  | step l t hne hw ih =>
    intro hhp hex htail
    obtain ⟨t2, ht2⟩ := walk_head points r0 (innerPass points l) t hw
    have hmem : innerPass points l ∈ L := by
      refine htail (innerPass points l) ?_
      rw [ht2]
      exact List.mem_cons_of_mem l (List.mem_cons_self _ t2)
    have hrestrict := innerPass_restrict points L l u hLP hhp hex hmem
    obtain ⟨hu, hin⟩ := hhp
    have hexP : ∃ x ∈ points, x ≠ l := by
      obtain ⟨x, hx, hxl⟩ := hex
      exact ⟨x, hLP x hx, hxl⟩
    obtain ⟨hPmem, hPne, hPin, hPdom⟩ := innerPass_max points l u ⟨hu, hin⟩ hexP
    have hhp2 : HalfPlane points (innerPass points l) (l - innerPass points l) :=
      halfplane_step points l u (innerPass points l) hu hin hPin hPne hPdom
    have hex2 : ∃ x ∈ L, x ≠ innerPass points l :=
      ⟨r0, hr0, fun h => hne h.symm⟩
    have htail2 : ∀ y ∈ t, y ∈ L := fun y hy => htail y (List.mem_cons_of_mem l hy)
    have hwL := ih (l - innerPass points l) hhp2 hex2 htail2
    refine Walk.step l t ?_ ?_
    · rw [hrestrict]
      exact hne
    · rw [hrestrict]
      exact hwL

theorem gift_wrapping_short (points : List (Point2 K)) (h : points.length ≤ 2) :
    gift_wrapping points = some points := by
  unfold gift_wrapping
  rw [if_pos h]

theorem gift_wrapping_long (points : List (Point2 K)) (h : ¬ points.length ≤ 2) :
    gift_wrapping points =
      gwLoop points (first_min points) (points.length + 1) (first_min points) [] := by
  unfold gift_wrapping
  rw [if_neg h]

/-- The cyclic equality operator accepts any polygon as equal to itself
(offset 0 matches). -/
theorem polygon_eq_refl (c : ConvexPolygon K) : c.eq c = true := by
  unfold ConvexPolygon.eq ConvexPolygon.get_vertices
  rw [if_neg (fun h => h rfl)]
  by_cases he : c.vertices.isEmpty
  · rw [if_pos he]
  · rw [if_neg he]
    rw [List.any_eq_true]
    have hlen : 0 < c.vertices.length := by
      cases hc : c.vertices with
      | nil => rw [hc] at he; exact absurd rfl he
      | cons a t => simp
    refine ⟨0, List.mem_range.mpr hlen, ?_⟩
    rw [List.all_eq_true]
    intro i hi
    rw [decide_eq_true_eq]
    rw [Nat.add_zero, Nat.mod_eq_of_lt (List.mem_range.mp hi)]

/-- C4: convex hull construction is idempotent.  Whenever the gift-wrapping
walk on a point set P terminates with the hull polygon, running convex_hull
again on that polygon's vertex list terminates and yields a polygon equal to
it under the cyclic vertex-list equality of ConvexPolygon::operator==. -/
theorem convex_hull_idempotent (P : List (Point2 K)) (hull : ConvexPolygon K)
    (h : convex_hull_points P = some hull) :
    ∃ hull2 : ConvexPolygon K,
      convex_hull_points hull.get_vertices = some hull2 ∧ hull2.eq hull = true := by
  unfold convex_hull_points at h
  cases hgw : gift_wrapping P with
  | none =>
    rw [hgw] at h
    exact absurd h (by simp)
  | some L =>
    rw [hgw] at h
    simp only [Option.map_some'] at h
    have heq := Option.some.inj h
    subst heq
    suffices hs : gift_wrapping L = some L by
      refine ⟨ConvexPolygon.ofVertices L, ?_, polygon_eq_refl _⟩
      show (gift_wrapping L).map ConvexPolygon.ofVertices =
        some (ConvexPolygon.ofVertices L)
      rw [hs]
      rfl
    by_cases hlen : L.length ≤ 2
    · exact gift_wrapping_short L hlen
    · by_cases hP : P.length ≤ 2
      · exfalso
        rw [gift_wrapping_short P hP] at hgw
        have hPL : P = L := Option.some.inj hgw
        rw [← hPL] at hlen
        exact hlen hP
      · rw [gift_wrapping_long P hP] at hgw
        obtain ⟨tail, hLtail, hw⟩ :=
          gwLoop_to_walk P (first_min P) (P.length + 1) (first_min P) [] L hgw
        have hLtail' : L = tail := by simpa using hLtail
        have hPne : P ≠ [] := by
          intro h0
          rw [h0] at hP
          simp at hP
        have hr0P : first_min P ∈ P := first_min_mem P hPne
        have hhp0 : HalfPlane P (first_min P) ⟨0, 1⟩ := halfplane_initial P hPne
        have hw' : Walk P (first_min P) (first_min P) L := by
          rw [hLtail']
          exact hw
        have hsub : ∀ y ∈ L, y ∈ P :=
          walk_subset P (first_min P) L (first_min P) hw' hr0P
        cases hw' with
        | stop _ hstop =>
          exfalso
          simp at hlen
        | step _ t hne1 hw2 =>
          obtain ⟨t2, ht2⟩ := walk_head P (first_min P) (innerPass P (first_min P)) t hw2
          have hmem2 : innerPass P (first_min P) ∈ first_min P :: t := by
            rw [ht2]
            exact List.mem_cons_of_mem _ (List.mem_cons_self _ t2)
          have hex : ∃ x ∈ first_min P :: t, x ≠ first_min P :=
            ⟨innerPass P (first_min P), hmem2, hne1⟩
          have hr0L : first_min P ∈ first_min P :: t := List.mem_cons_self _ t
          have hwFull : Walk P (first_min P) (first_min P) (first_min P :: t) :=
            Walk.step _ t hne1 hw2
          have hwL : Walk (first_min P :: t) (first_min P) (first_min P)
              (first_min P :: t) :=
            walk_rerun P (first_min P :: t) (first_min P) hsub hr0L
              (first_min P :: t) (first_min P) ⟨0, 1⟩ hwFull hhp0 hex (fun _ hy => hy)
          have hfm : first_min (first_min P :: t) = first_min P :=
            first_min_cons_eq (first_min P) t
              (fun x hx => first_min_min P hPne x (hsub x (List.mem_cons_of_mem _ hx)))
          rw [gift_wrapping_long _ hlen, hfm]
          have hrun := walk_to_gwLoop (first_min P :: t) (first_min P)
            (first_min P :: t) (first_min P) hwL [] ((first_min P :: t).length + 1)
            (Nat.le_succ _)
          simpa using hrun

/-- A concrete triangle over ℚ exercising the hull construction end to end. -/
def c4tri : List (Point2 ℚ) := [⟨0, 0⟩, ⟨50, 0⟩, ⟨25, 50⟩]

theorem c4_first_min : first_min c4tri = ⟨0, 0⟩ := by
  norm_num [c4tri, first_min, lexLt]

theorem c4_ip0 : innerPass c4tri ⟨0, 0⟩ = ⟨50, 0⟩ := by
  norm_num [c4tri, innerPass, passStep, is_left, Point2.magnitude2, List.find?,
    Point2.mk.injEq]

theorem c4_ip1 : innerPass c4tri ⟨50, 0⟩ = ⟨25, 50⟩ := by
  norm_num [c4tri, innerPass, passStep, is_left, Point2.magnitude2, List.find?,
    Point2.mk.injEq]

theorem c4_ip2 : innerPass c4tri ⟨25, 50⟩ = ⟨0, 0⟩ := by
  norm_num [c4tri, innerPass, passStep, is_left, Point2.magnitude2, List.find?,
    Point2.mk.injEq]

theorem c4_gift : gift_wrapping c4tri = some c4tri := by
  have h4 : c4tri.length + 1 = 1 + 1 + 1 + 1 := by norm_num [c4tri]
  rw [gift_wrapping_long c4tri (by norm_num [c4tri]), c4_first_min, h4]
  rw [gwLoop_succ, c4_ip0, if_neg (by norm_num [Point2.mk.injEq])]
  rw [gwLoop_succ, c4_ip1, if_neg (by norm_num [Point2.mk.injEq])]
  rw [gwLoop_succ, c4_ip2]
  norm_num [c4tri]

theorem c4_hull_eval :
    convex_hull_points c4tri = some (ConvexPolygon.ofVertices c4tri) := by
  unfold convex_hull_points
  rw [c4_gift]
  rfl

/-- Witness for C4: the hull of the test triangle exists, and rebuilding the
hull from its vertex list succeeds and compares equal. -/
theorem convex_hull_idempotent_witness :
    ∃ hull2 : ConvexPolygon ℚ,
      convex_hull_points (ConvexPolygon.ofVertices c4tri).get_vertices = some hull2 ∧
        hull2.eq (ConvexPolygon.ofVertices c4tri) = true :=
  convex_hull_idempotent c4tri (ConvexPolygon.ofVertices c4tri) c4_hull_eval

end Convack
